import Mathlib

/-!
Verification development for `nsist/copymodules.py`.

The Python module is shallowly embedded: each Python function becomes a Lean
definition over explicit data (strings, lists, a small file-tree type, and an
environment record standing for the pieces of the interpreter state the code
consults, such as `importlib` resolution results and `os.path.samefile`).
Exceptions are modelled with `Except`.  Paths are modelled as POSIX-style
strings (components separated by `/`); where the source normalizes paths with
`os.path.abspath(os.path.realpath(...))` the model works with paths that are
already in normalized absolute form, so that normalization is the identity.
-/

/-- Python exceptions raised (directly or via library calls) by the code under
study.  `extensionModuleMismatch` models the module's own
`ExtensionModuleMismatch(ImportError)` class. -/
inductive PyErr where
  | extensionModuleMismatch (msg : String)
  | importError (msg : String)
  | nameError (msg : String)
  | assertionError
  | keyError (msg : String)
  | fileExistsError
  | notADirectoryError
deriving DecidableEq, Repr

/-- Boolean test that the list `p` is an initial segment of `s` (character
lists).  Used to model Python's `str.startswith` and, reversed, `str.endswith`. -/
def chStarts : List Char → List Char → Bool
  | [], _ => true
  | _ :: _, [] => false
  | p :: ps, c :: cs => decide (p = c) && chStarts ps cs

/-- Model of Python `s.startswith(t)`. -/
def pyStartsWith (s t : String) : Bool := chStarts t.data s.data

/-- Model of Python `s.endswith(t)`. -/
def pyEndsWith (s t : String) : Bool := chStarts t.data.reverse s.data.reverse

theorem chStarts_iff (p s : List Char) : chStarts p s = true ↔ ∃ t, s = p ++ t := by
  induction p generalizing s with
  | nil => simp [chStarts]
  | cons a as ih =>
    cases s with
    | nil => simp [chStarts]
    | cons b bs =>
      simp only [chStarts, Bool.and_eq_true, decide_eq_true_eq, ih, List.cons_append,
        List.cons.injEq]
      constructor
      · rintro ⟨rfl, t, rfl⟩; exact ⟨t, rfl, rfl⟩
      · rintro ⟨t, rfl, rfl⟩; exact ⟨rfl, t, rfl⟩

theorem pyEndsWith_iff (s t : String) :
    pyEndsWith s t = true ↔ ∃ u, s.data = u ++ t.data := by
  unfold pyEndsWith
  rw [chStarts_iff]
  constructor
  · rintro ⟨u, hu⟩
    refine ⟨u.reverse, ?_⟩
    have := congrArg List.reverse hu
    simpa using this
  · rintro ⟨u, hu⟩
    exact ⟨u.reverse, by simp [hu]⟩

/-- A path ending in `.pyd` cannot also end in `.so` (last characters differ). -/
theorem pyd_not_so (s : String) (h : pyEndsWith s ".pyd" = true) :
    pyEndsWith s ".so" = false := by
  rw [pyEndsWith_iff] at h
  obtain ⟨u, hu⟩ := h
  by_contra hso
  rw [Bool.not_eq_false, pyEndsWith_iff] at hso
  obtain ⟨v, hv⟩ := hso
  have : s.data.getLast? = some 'd' := by
    rw [hu]; simp [List.getLast?_append]
  rw [hv] at this
  simp [List.getLast?_append] at this

/- ----------------------------------------------------------------------
Source, `nsist/copymodules.py` lines 14-15:

    PY2 = sys.version_info[0] == 2
    running_python  = '.'.join(str(x) for x in sys.version_info[:2])

`running_python` depends on the interpreter executing the build, so the model
threads it through as an explicit parameter `running_python`.
---------------------------------------------------------------------- -/

/-- Source lines 28-30: the `extensionmod_errmsg` template, with the two
`%s` fields filled in. -/
def extensionmod_errmsg (platform path : String) : String :=
  "Found an extension module that will not be usable on " ++ platform ++ ":\n"
    ++ path ++ "\nPut Windows packages in pynsist_pkgs/ to avoid this."

/-- Source lines 32-45, `check_ext_mod(path, target_python)`:

    if path.endswith('.so'):
        raise ExtensionModuleMismatch(extensionmod_errmsg % ('Windows', path))
    elif path.endswith('.pyd') and not target_python.startswith(running_python):
        raise ExtensionModuleMismatch(extensionmod_errmsg % ('Python '+target_python, path))
-/
def check_ext_mod (path target_python running_python : String) : Except PyErr Unit :=
  if pyEndsWith path ".so" then
    .error (.extensionModuleMismatch (extensionmod_errmsg "Windows" path))
  else if pyEndsWith path ".pyd" && !(pyStartsWith target_python running_python) then
    .error (.extensionModuleMismatch (extensionmod_errmsg ("Python " ++ target_python) path))
  else
    .ok ()

/-- C2: for every path and every target runtime version string, `check_ext_mod`
raises `ExtensionModuleMismatch` whenever the path ends in the non-portable
shared-object suffix `.so`, regardless of whether the target version matches
the running version. -/
theorem C2_so_always_raises (path target_python running_python : String)
    (h : pyEndsWith path ".so" = true) :
    check_ext_mod path target_python running_python
      = .error (.extensionModuleMismatch (extensionmod_errmsg "Windows" path)) := by
  simp [check_ext_mod, h]

theorem C2_so_always_raises_witness :
    pyEndsWith "/x/mod.so" ".so" = true ∧
      check_ext_mod "/x/mod.so" "3.8" "3.8"
        = .error (.extensionModuleMismatch (extensionmod_errmsg "Windows" "/x/mod.so")) :=
  ⟨by decide, C2_so_always_raises "/x/mod.so" "3.8" "3.8" (by decide)⟩

/-- C3 counterexample: the code accepts a `.pyd` extension whenever the target
version string merely STARTS WITH the running version, so a target version
that differs from the running version can still pass without error
(`"3.81"` vs running `"3.8"`), contradicting the claim that a differing
version always raises. -/
theorem C3_counterexample :
    check_ext_mod "m.pyd" "3.81" "3.8" = .ok () ∧ ("3.81" : String) ≠ "3.8" :=
  ⟨rfl, by decide⟩

/-- C3 amended: for every path ending in `.pyd`, `check_ext_mod` returns
without error exactly when the target runtime version string starts with the
currently running runtime version string (so equal versions are accepted, but
so is any target string extending the running version), and raises
`ExtensionModuleMismatch` exactly when it does not. -/
theorem C3_pyd_startswith (path target_python running_python : String)
    (h : pyEndsWith path ".pyd" = true) :
    (check_ext_mod path target_python running_python = .ok ()
        ↔ pyStartsWith target_python running_python = true)
      ∧ (target_python = running_python
          → check_ext_mod path target_python running_python = .ok ()) := by
  have hso := pyd_not_so path h
  constructor
  · simp only [check_ext_mod, hso, Bool.false_eq_true, if_false, h, Bool.true_and]
    cases hst : pyStartsWith target_python running_python <;> simp
  · intro he
    have hst : pyStartsWith target_python running_python = true := by
      subst he
      unfold pyStartsWith
      rw [chStarts_iff]
      exact ⟨[], by simp⟩
    simp [check_ext_mod, hso, h, hst]

theorem C3_pyd_startswith_witness :
    pyEndsWith "m.pyd" ".pyd" = true ∧ check_ext_mod "m.pyd" "3.8" "3.8" = .ok () :=
  ⟨by decide, (C3_pyd_startswith "m.pyd" "3.8" "3.8" (by decide)).2 rfl⟩

/- ----------------------------------------------------------------------
POSIX path helpers.  These model the `os.path` functions the source calls,
for `/`-separated paths (the build host of this code path is POSIX; the
separator translation the source attempts for the target is separate).
---------------------------------------------------------------------- -/

/-- Model of `os.path.join(a, b)` on POSIX: an absolute second argument
replaces the first; otherwise the parts are glued with a single `/`. -/
def os_path_join (a b : String) : String :=
  if b.data.head? = some '/' then b
  else if a = "" then b
  else if a.data.getLast? = some '/' then a ++ b
  else a ++ "/" ++ b

/-- Strip trailing slashes, except when the string consists only of slashes
(as `os.path.split` does for its head part). -/
def rstripSlash (h : List Char) : List Char :=
  let st := (h.reverse.dropWhile (fun c => c = '/')).reverse
  if st.isEmpty && !h.isEmpty then h else st

/-- Model of `os.path.split`: the pair (everything before the last `/`, with
trailing slashes stripped; everything after it). -/
def os_path_split (s : String) : String × String :=
  let st := s.data.foldl
    (fun (p : List Char × List Char) c =>
      if c = '/' then (p.1 ++ p.2 ++ ['/'], []) else (p.1, p.2 ++ [c]))
    (([] : List Char), ([] : List Char))
  (⟨rstripSlash st.1⟩, ⟨st.2⟩)

/-- Model of `os.path.basename`. -/
def os_basename (s : String) : String := (os_path_split s).2

/-- Model of `os.path.relpath(p, base)` for the cases arising during a tree
copy, where `p` is always `base` itself or a path strictly below it. -/
def os_path_relpath (p base : String) : String :=
  if p = base then "."
  else if pyStartsWith p (base ++ "/") then ⟨p.data.drop (base.data.length + 1)⟩
  else p

/-- Split a character list at every `/`. -/
def splitSlashes : List Char → List (List Char)
  | [] => [[]]
  | c :: rest =>
    let r := splitSlashes rest
    if c = '/' then [] :: r
    else (c :: r.headD []) :: r.tail

/-- Components of a `/`-separated path, empty segments dropped. -/
def pathComponents (s : String) : List String :=
  ((splitSlashes s.data).map (fun l => (⟨l⟩ : String))).filter
    (fun c => c ≠ "")

/-- Model of `os.path.splitext`: split at the last dot, unless every character
before that dot is itself a dot (so `.bashrc` has no extension). -/
def splitext (s : String) : String × String :=
  let cs := s.data
  let idxs := (List.range cs.length).filter (fun i => cs.getD i ' ' = '.')
  match idxs.getLast? with
  | none => (s, "")
  | some i =>
    if (cs.take i).any (fun c => c ≠ '.') then (⟨cs.take i⟩, ⟨cs.drop i⟩)
    else (s, "")

def sepNorm (c : Char) : Char := if c = '\\' then '/' else c

/-- Modelled from the spec: `normalize_path` is imported from `nsist/util.py`,
which is not among the sources under study.  Per spec 4.3 the exclusion filter
computes "each candidate file's path as it will appear under the target root"
and matches globs against it; the model normalizes Windows-style `\`
separators to `/` so patterns see that uniform path form
(`sepNorm` is the per-character translation). -/
def normalize_path (p : String) : String := ⟨p.data.map sepNorm⟩

/- ----------------------------------------------------------------------
Glob matching, modelling `fnmatch` as used here: `*` matches any sequence of
characters (including separators), `?` any single character, other characters
match themselves.
---------------------------------------------------------------------- -/

def globMatch (p s : List Char) : Bool :=
  match p, s with
  | [], [] => true
  | [], _ :: _ => false
  | q :: ps, [] => decide (q = '*') && globMatch ps []
  | q :: ps, c :: s2 =>
    if q = '*' then globMatch ps (c :: s2) || globMatch (q :: ps) s2
    else (decide (q = '?') || decide (q = c)) && globMatch ps s2
termination_by p.length + s.length
decreasing_by all_goals simp_arith

/-- Model of `fnmatch.filter(names, pat)`. -/
def fnmatchFilter (names : List String) (pat : String) : List String :=
  names.filter (fun n => globMatch pat.data n.data)

/-- Source lines 85-102, `copytree_ignore_callback(excludes, pkgdir, modname,
directory, files)`: maps each name to its normalized path under
`pkgs/<modname>/<reldir>`, then collects the basenames matched by any
configured exclude pattern or by the implicit `*.pyc` pattern.  The source
accumulates into a set; the model returns a list with the same membership. -/
def copytree_ignore_callback (excludes : List String) (pkgdir modname : String)
    (directory : String) (files : List String) : List String :=
  let reldir := os_path_relpath directory pkgdir
  let targetP := os_path_join (os_path_join "pkgs" modname) reldir
  let files2 := files.map (fun fname => normalize_path (os_path_join targetP fname))
  (excludes ++ ["*.pyc"]).foldl
    (fun ignored pattern => ignored ++ (fnmatchFilter files2 pattern).map os_basename) []

/-- Model of `shutil.ignore_patterns(*pats)`: the returned callback ignores
exactly the names matching one of the patterns (line 165 uses it with
`'*.pyc'`). -/
def ignore_patterns_cb (pats : List String) (_directory : String)
    (names : List String) : List String :=
  names.filter (fun n => pats.any (fun p => globMatch p.data n.data))

/- ----------------------------------------------------------------------
File trees: the fragment of the filesystem a copy operates on.
---------------------------------------------------------------------- -/

inductive FsTree where
  | file (nm content : String)
  | dir (nm : String) (children : List FsTree)
deriving Repr

def FsTree.name : FsTree → String
  | .file n _ => n
  | .dir n _ => n

/- Model of `shutil.copytree(src, dst, ignore=cb)` restricted to its data
flow: `copyDir cb p ch` is the list of entries staged at the destination when
copying a source directory at path `p` with children `ch`.  At every directory
visited, the ignore callback is invoked with the directory path and the names
present, and the returned names are skipped; the rest is copied recursively
(`copyKept` processes the children once the ignored set is computed). -/
mutual
def copyDir (cb : String → List String → List String) (p : String)
    (ch : List FsTree) : List FsTree :=
  copyKept cb p (cb p (ch.map FsTree.name)) ch
termination_by (sizeOf ch, 1)

def copyKept (cb : String → List String → List String) (p : String)
    (ign : List String) (l : List FsTree) : List FsTree :=
  match l with
  | [] => []
  | .file n c :: rest =>
    (if n ∈ ign then [] else [.file n c]) ++ copyKept cb p ign rest
  | .dir n sub :: rest =>
    (if n ∈ ign then [] else [.dir n (copyDir cb (os_path_join p n) sub)])
      ++ copyKept cb p ign rest
termination_by (sizeOf l, 0)
end

/- No file anywhere in the tree has a name matching `*.pyc`. -/
mutual
def treeNoPyc : FsTree → Bool
  | .file n _ => !(globMatch "*.pyc".data n.data)
  | .dir _ ch => forestNoPyc ch

def forestNoPyc : List FsTree → Bool
  | [] => true
  | t :: ts => treeNoPyc t && forestNoPyc ts
end

/-- A name free of both separator characters (every real directory entry
name is). -/
def nameClean (n : String) : Bool := n.data.all (fun c => c ≠ '/' && c ≠ '\\')

/- Every name in the tree is separator-free. -/
mutual
def treeClean : FsTree → Bool
  | .file n _ => nameClean n
  | .dir n ch => nameClean n && forestClean ch

def forestClean : List FsTree → Bool
  | [] => true
  | t :: ts => treeClean t && forestClean ts
end

/- ----------------------------------------------------------------------
Glob-matching lemmas used to characterize the implicit `*.pyc` exclusion.
---------------------------------------------------------------------- -/

theorem globMatch_nil_nil : globMatch [] [] = true := by
  simp [globMatch]

theorem globMatch_nil_cons (c : Char) (s : List Char) :
    globMatch [] (c :: s) = false := by
  simp [globMatch]

theorem globMatch_cons_nil (q : Char) (ps : List Char) :
    globMatch (q :: ps) [] = (decide (q = '*') && globMatch ps []) := by
  simp [globMatch]

theorem globMatch_cons_cons (q : Char) (ps : List Char) (c : Char) (s2 : List Char) :
    globMatch (q :: ps) (c :: s2)
      = if q = '*' then globMatch ps (c :: s2) || globMatch (q :: ps) s2
        else (decide (q = '?') || decide (q = c)) && globMatch ps s2 := by
  rw [globMatch]

theorem globLit_iff (p s : List Char) (hp : ∀ c ∈ p, c ≠ '*' ∧ c ≠ '?') :
    globMatch p s = true ↔ s = p := by
  induction p generalizing s with
  | nil =>
    cases s with
    | nil => simp [globMatch_nil_nil]
    | cons c s2 => simp [globMatch_nil_cons]
  | cons q ps ih =>
    have hq := hp q (by simp)
    cases s with
    | nil =>
      rw [globMatch_cons_nil]
      simp [hq.1]
    | cons c s2 =>
      rw [globMatch_cons_cons, if_neg hq.1]
      simp only [Bool.and_eq_true, Bool.or_eq_true, decide_eq_true_eq, List.cons.injEq]
      rw [ih s2 (fun x hx => hp x (List.mem_cons_of_mem _ hx))]
      constructor
      · rintro ⟨hqc, rfl⟩
        rcases hqc with h | h
        · exact absurd h hq.2
        · exact ⟨h.symm, rfl⟩
      · rintro ⟨rfl, rfl⟩
        exact ⟨Or.inr rfl, rfl⟩

theorem globStar_iff (ps s : List Char) :
    globMatch ('*' :: ps) s = true ↔ ∃ a b, s = a ++ b ∧ globMatch ps b = true := by
  induction s with
  | nil =>
    rw [globMatch_cons_nil]
    simp only [decide_eq_true_eq, Bool.and_eq_true, decide_eq_true_eq]
    constructor
    · rintro ⟨-, h⟩
      exact ⟨[], [], rfl, h⟩
    · rintro ⟨a, b, hab, hb⟩
      have hab2 := hab.symm
      rw [List.append_eq_nil] at hab2
      exact ⟨trivial, hab2.2 ▸ hb⟩
  | cons c s2 ih =>
    rw [globMatch_cons_cons, if_pos rfl]
    simp only [Bool.or_eq_true]
    constructor
    · rintro (h | h)
      · exact ⟨[], c :: s2, rfl, h⟩
      · obtain ⟨a, b, hab, hb⟩ := ih.mp h
        exact ⟨c :: a, b, by simp [hab], hb⟩
    · rintro ⟨a, b, hab, hb⟩
      cases a with
      | nil =>
        left
        rw [List.nil_append] at hab
        subst hab
        exact hb
      | cons a0 a2 =>
        right
        apply ih.mpr
        refine ⟨a2, b, ?_, hb⟩
        simpa using congrArg List.tail hab

/-- `*.pyc` matches exactly the character lists ending in `.pyc`. -/
theorem globPyc_iff (s : List Char) :
    globMatch "*.pyc".data s = true ↔ ∃ t, s = t ++ ".pyc".data := by
  have h1 : ("*.pyc".data : List Char) = '*' :: ".pyc".data := by decide
  rw [h1, globStar_iff]
  constructor
  · rintro ⟨a, b, rfl, hb⟩
    rw [globLit_iff _ _ (by decide)] at hb
    exact ⟨a, by rw [hb]⟩
  · rintro ⟨t, rfl⟩
    exact ⟨t, ".pyc".data, rfl, by rw [globLit_iff _ _ (by decide)]⟩

/- ----------------------------------------------------------------------
Path lemmas feeding the exclusion-filter analysis.
---------------------------------------------------------------------- -/

theorem str_ne_empty_iff (a : String) : a ≠ "" ↔ a.data ≠ [] := by
  constructor
  · intro h hd
    exact h (String.ext hd)
  · intro h hd
    rw [hd] at h
    exact h rfl

theorem os_path_join_ne_empty (a b : String) (ha : a ≠ "") : os_path_join a b ≠ "" := by
  have had : a.data ≠ [] := (str_ne_empty_iff a).mp ha
  unfold os_path_join
  by_cases hb : b.data.head? = some '/'
  · rw [if_pos hb]
    intro hcon
    rw [hcon] at hb
    simp at hb
  · rw [if_neg hb, if_neg ha]
    by_cases hl : a.data.getLast? = some '/'
    · rw [if_pos hl, str_ne_empty_iff, String.data_append]
      intro hcon
      rw [List.append_eq_nil] at hcon
      exact had hcon.1
    · rw [if_neg hl, str_ne_empty_iff, String.data_append, String.data_append]
      intro hcon
      obtain ⟨h1, -⟩ := List.append_eq_nil.mp hcon
      obtain ⟨h2, -⟩ := List.append_eq_nil.mp h1
      exact had h2

/-- Joining a nonempty directory with a relative name always yields
`<something>/name` at the character level. -/
theorem os_path_join_data (a n : String) (ha : a ≠ "")
    (hh : n.data.head? ≠ some '/') :
    ∃ u, (os_path_join a n).data = u ++ '/' :: n.data := by
  unfold os_path_join
  by_cases hb : n.data.head? = some '/'
  · exact absurd hb hh
  · rw [if_neg hb, if_neg ha]
    by_cases hl : a.data.getLast? = some '/'
    · rw [if_pos hl]
      refine ⟨a.data.dropLast, ?_⟩
      rw [String.data_append]
      have hsplit := List.dropLast_append_getLast? '/' hl
      conv_lhs => rw [← hsplit]
      simp
    · rw [if_neg hl]
      refine ⟨a.data, ?_⟩
      rw [String.data_append, String.data_append]
      simp

theorem data_mk (l : List Char) : (String.mk l).data = l := rfl

/-- The split fold leaves the head untouched and accumulates slash-free input
into the tail. -/
theorem splitFold_noSlash (l : List Char) (h : ∀ c ∈ l, c ≠ '/')
    (st : List Char × List Char) :
    l.foldl (fun (p : List Char × List Char) c =>
        if c = '/' then (p.1 ++ p.2 ++ ['/'], []) else (p.1, p.2 ++ [c])) st
      = (st.1, st.2 ++ l) := by
  induction l generalizing st with
  | nil => simp
  | cons c cs ih =>
    have hc : c ≠ '/' := h c (by simp)
    rw [List.foldl_cons, if_neg hc, ih (fun x hx => h x (by simp [hx]))]
    simp

theorem os_basename_after_slash (u : List Char) (n : String)
    (hn : ∀ c ∈ n.data, c ≠ '/') :
    os_basename ⟨u ++ '/' :: n.data⟩ = n := by
  unfold os_basename os_path_split
  simp only [data_mk, List.foldl_append, List.foldl_cons, if_pos rfl]
  rw [splitFold_noSlash n.data hn]
  simp

theorem mem_foldl_append_init {β : Type} (g : β → List String) (l : List β)
    (init : List String) (x : String) (hx : x ∈ init) :
    x ∈ l.foldl (fun acc y => acc ++ g y) init := by
  induction l generalizing init with
  | nil => simpa
  | cons b bs ih => exact ih _ (List.mem_append_left _ hx)

theorem mem_foldl_append {β : Type} (g : β → List String) (l : List β)
    (x : String) (b : β) (hb : b ∈ l) (hx : x ∈ g b) (init : List String) :
    x ∈ l.foldl (fun acc y => acc ++ g y) init := by
  induction l generalizing init with
  | nil => cases hb
  | cons a as ih =>
    rw [List.foldl_cons]
    rcases List.mem_cons.mp hb with rfl | hb2
    · exact mem_foldl_append_init _ _ _ _ (List.mem_append_right _ hx)
    · exact ih hb2 _

theorem nameClean_no_slash (n : String) (h : nameClean n = true) :
    ∀ c ∈ n.data, c ≠ '/' := by
  intro c hc
  unfold nameClean at h
  rw [List.all_eq_true] at h
  have := h c hc
  simp only [Bool.and_eq_true, decide_eq_true_eq] at this
  exact this.1

theorem nameClean_no_bs (n : String) (h : nameClean n = true) :
    ∀ c ∈ n.data, c ≠ '\\' := by
  intro c hc
  unfold nameClean at h
  rw [List.all_eq_true] at h
  have := h c hc
  simp only [Bool.and_eq_true, decide_eq_true_eq] at this
  exact this.2

theorem sepNorm_noop (l : List Char) (h : ∀ c ∈ l, c ≠ '\\') :
    l.map sepNorm = l := by
  induction l with
  | nil => rfl
  | cons c cs ih =>
    rw [List.map_cons, ih (fun x hx => h x (by simp [hx]))]
    have : sepNorm c = c := by
      unfold sepNorm
      rw [if_neg (h c (by simp))]
    rw [this]

/-- Whatever the configured exclude patterns, `copytree_ignore_callback`
always ignores every (separator-free) name matching `*.pyc`, because the
`'*.pyc'` pattern is appended to the configured patterns and the glob is
matched against a path ending in the name. -/
theorem copytree_cb_pyc (excludes : List String) (pkgdir modname directory : String)
    (names : List String) (n : String) (hn : n ∈ names) (hc : nameClean n = true)
    (hm : globMatch "*.pyc".data n.data = true) :
    n ∈ copytree_ignore_callback excludes pkgdir modname directory names := by
  obtain ⟨t, ht⟩ := (globPyc_iff n.data).mp hm
  have hpyc4 : (".pyc".data : List Char) = ['.', 'p', 'y', 'c'] := by decide
  have hh : n.data.head? ≠ some '/' := by
    intro hcon
    exact nameClean_no_slash n hc '/' (List.mem_of_mem_head? (by simp [hcon])) rfl
  have htp : os_path_join (os_path_join "pkgs" modname) (os_path_relpath directory pkgdir) ≠ "" :=
    os_path_join_ne_empty _ _ (os_path_join_ne_empty "pkgs" modname (by decide))
  obtain ⟨u, hu⟩ := os_path_join_data _ n htp hh
  have hjd : (normalize_path (os_path_join
      (os_path_join (os_path_join "pkgs" modname) (os_path_relpath directory pkgdir)) n)).data
      = u.map sepNorm ++ '/' :: n.data := by
    unfold normalize_path
    rw [data_mk, hu, List.map_append, List.map_cons]
    have h1 : sepNorm '/' = '/' := by unfold sepNorm; rw [if_neg (by decide)]
    rw [h1, sepNorm_noop n.data (nameClean_no_bs n hc)]
  have hjeq : normalize_path (os_path_join
      (os_path_join (os_path_join "pkgs" modname) (os_path_relpath directory pkgdir)) n)
      = ⟨u.map sepNorm ++ '/' :: n.data⟩ := String.ext hjd
  have hbn : os_basename (normalize_path (os_path_join
      (os_path_join (os_path_join "pkgs" modname) (os_path_relpath directory pkgdir)) n)) = n := by
    rw [hjeq]
    exact os_basename_after_slash _ n (nameClean_no_slash n hc)
  have hjm : globMatch "*.pyc".data (normalize_path (os_path_join
      (os_path_join (os_path_join "pkgs" modname) (os_path_relpath directory pkgdir)) n)).data
      = true := by
    rw [globPyc_iff, hjd, ht]
    exact ⟨u.map sepNorm ++ '/' :: t, by simp⟩
  simp only [copytree_ignore_callback]
  apply mem_foldl_append _ _ n "*.pyc" (List.mem_append_right _ (by simp))
  unfold fnmatchFilter
  apply List.mem_map.mpr
  refine ⟨_, List.mem_filter.mpr ⟨List.mem_map_of_mem _ hn, hjm⟩, hbn⟩

theorem forestClean_mem (l : List FsTree) (t : FsTree)
    (hl : forestClean l = true) (ht : t ∈ l) : treeClean t = true := by
  induction l with
  | nil => cases ht
  | cons a as ih =>
    rw [forestClean, Bool.and_eq_true] at hl
    rcases List.mem_cons.mp ht with rfl | h2
    · exact hl.1
    · exact ih hl.2 h2

theorem treeClean_name (t : FsTree) (h : treeClean t = true) :
    nameClean t.name = true := by
  cases t with
  | file n c => exact h
  | dir n ch =>
    rw [treeClean, Bool.and_eq_true] at h
    exact h.1

theorem forestNoPyc_append (a b : List FsTree) :
    forestNoPyc (a ++ b) = (forestNoPyc a && forestNoPyc b) := by
  induction a with
  | nil => simp [forestNoPyc]
  | cons t ts ih =>
    rw [List.cons_append, forestNoPyc, forestNoPyc, ih, Bool.and_assoc]

/- Any copytree run whose ignore callback swallows every `*.pyc`-matching
(separator-free) name produces a staged tree with no `.pyc` file. -/
mutual
theorem copyDir_noPyc (cb : String → List String → List String)
    (hcb : ∀ q names n, n ∈ names → nameClean n = true
      → globMatch "*.pyc".data n.data = true → n ∈ cb q names)
    (p : String) (ch : List FsTree) (hch : forestClean ch = true) :
    forestNoPyc (copyDir cb p ch) = true := by
  rw [copyDir]
  exact copyKept_noPyc cb hcb p (cb p (ch.map FsTree.name)) ch hch
    (fun t ht hpyc => hcb p (ch.map FsTree.name) t.name (List.mem_map_of_mem _ ht)
      (treeClean_name t (forestClean_mem ch t hch ht)) hpyc)
termination_by (sizeOf ch, 1)

theorem copyKept_noPyc (cb : String → List String → List String)
    (hcb : ∀ q names n, n ∈ names → nameClean n = true
      → globMatch "*.pyc".data n.data = true → n ∈ cb q names)
    (p : String) (ign : List String) (l : List FsTree)
    (hl : forestClean l = true)
    (hign : ∀ t ∈ l, globMatch "*.pyc".data t.name.data = true → t.name ∈ ign) :
    forestNoPyc (copyKept cb p ign l) = true := by
  cases l with
  | nil => rw [copyKept]; rfl
  | cons t rest =>
    cases t with
    | file n c =>
      rw [copyKept, forestNoPyc_append, Bool.and_eq_true]
      have hclean : treeClean (FsTree.file n c) = true :=
        forestClean_mem _ _ hl (by simp)
      have hrest : forestClean rest = true := by
        rw [forestClean, Bool.and_eq_true] at hl
        exact hl.2
      refine ⟨?_, copyKept_noPyc cb hcb p ign rest hrest
        (fun x hx hpyc => hign x (List.mem_cons_of_mem _ hx) hpyc)⟩
      by_cases hpyc : globMatch "*.pyc".data n.data = true
      · have hmem : n ∈ ign := hign (FsTree.file n c) (by simp) hpyc
        rw [if_pos hmem]
        rfl
      · by_cases hmem : n ∈ ign
        · rw [if_pos hmem]; rfl
        · rw [if_neg hmem]
          rw [forestNoPyc, forestNoPyc, treeNoPyc]
          simp [Bool.not_eq_true] at hpyc
          rw [hpyc]
          rfl
    | dir n sub =>
      rw [copyKept, forestNoPyc_append, Bool.and_eq_true]
      have hrest : forestClean rest = true := by
        rw [forestClean, Bool.and_eq_true] at hl
        exact hl.2
      have hsub : forestClean sub = true := by
        have := forestClean_mem _ _ hl (List.mem_cons_self _ _)
        rw [treeClean, Bool.and_eq_true] at this
        exact this.2
      refine ⟨?_, copyKept_noPyc cb hcb p ign rest hrest
        (fun x hx hpyc => hign x (List.mem_cons_of_mem _ hx) hpyc)⟩
      by_cases hmem : n ∈ ign
      · rw [if_pos hmem]; rfl
      · rw [if_neg hmem]
        rw [forestNoPyc, forestNoPyc, treeNoPyc]
        rw [copyDir_noPyc cb hcb (os_path_join p n) sub hsub]
        rfl
termination_by (sizeOf l, 0)
end

/-- C7 amended: in the two filesystem directory-copy branches of
`ModuleCopier.copy` — the exclude-pattern branch, which installs
`copytree_ignore_callback` (for any configured patterns), and the
no-exclude branch, which installs `shutil.ignore_patterns('*.pyc')` — every
file matching `*.pyc` is omitted from the staged copy even when no explicit
exclusion pattern lists it (for trees whose entry names are separator-free,
as real directory entries are).  The archive-extraction path gives NO such
guarantee: see the counterexample theorem. -/
theorem C7_pyc_excluded_dir_copies (excludes : List String)
    (pkgdir modname p : String) (ch : List FsTree)
    (hch : forestClean ch = true) :
    forestNoPyc (copyDir (ignore_patterns_cb ["*.pyc"]) p ch) = true ∧
      forestNoPyc (copyDir (copytree_ignore_callback excludes pkgdir modname) p ch) = true := by
  constructor
  · apply copyDir_noPyc _ _ p ch hch
    intro q names n hn hc hm
    unfold ignore_patterns_cb
    rw [List.mem_filter]
    exact ⟨hn, by simp [hm]⟩
  · apply copyDir_noPyc _ _ p ch hch
    intro q names n hn hc hm
    exact copytree_cb_pyc excludes pkgdir modname q names n hn hc hm

theorem C7_pyc_excluded_dir_copies_witness :
    forestNoPyc (copyDir (ignore_patterns_cb ["*.pyc"]) "/site/pkg"
        [FsTree.file "a.py" "src", FsTree.file "b.pyc" "bin",
          FsTree.dir "sub" [FsTree.file "c.pyc" "bin2"]]) = true ∧
      forestNoPyc (copyDir (copytree_ignore_callback ["doc/*"] "/site/pkg" "pkg")
          "/site/pkg"
          [FsTree.file "a.py" "src", FsTree.file "b.pyc" "bin",
            FsTree.dir "sub" [FsTree.file "c.pyc" "bin2"]]) = true :=
  C7_pyc_excluded_dir_copies ["doc/*"] "/site/pkg" "pkg" "/site/pkg"
    [FsTree.file "a.py" "src", FsTree.file "b.pyc" "bin",
      FsTree.dir "sub" [FsTree.file "c.pyc" "bin2"]] (by decide)

/- ----------------------------------------------------------------------
Target-directory operations: the effect of `shutil.copy2`, `shutil.copytree`
destination creation, and zip extraction on a directory listing.
---------------------------------------------------------------------- -/

/-- Writing one file into a directory listing: an existing entry of that
name is replaced by the new file, otherwise the file is appended (the effect
of `open(..., 'w')` and of `shutil`'s file copy on the listing). -/
def upsertFile (nm content : String) : List FsTree → List FsTree
  | [] => [.file nm content]
  | t :: ts =>
    if t.name = nm then .file nm content :: ts
    else t :: upsertFile nm content ts

/-- Model of `shutil.copy2(src, targetdir)` on the target listing: the
destination is `targetdir/<base>` where `base = basename(src)`.  An existing
file of that name is overwritten; if that name is an existing directory,
`copy2` treats it as the destination directory and writes `<base>` one level
inside it. -/
def copy2ToDir (base content : String) : List FsTree → List FsTree
  | [] => [.file base content]
  | .file n c :: rest =>
    if n = base then .file base content :: rest
    else .file n c :: copy2ToDir base content rest
  | .dir n ch :: rest =>
    if n = base then .dir n (upsertFile base content ch) :: rest
    else .dir n ch :: copy2ToDir base content rest

/-- The chain of fresh directories `os.makedirs` creates down to a new
`copytree` destination; the final component is the copied tree itself. -/
def buildChain : List String → FsTree → FsTree
  | [], tr => tr
  | [_], tr => tr
  | c :: rest, tr => .dir c [buildChain rest tr]

/- Model of creating a `copytree` destination `target/<path>` and placing the
copied tree there: intermediate directories are created as needed
(`os.makedirs`), an existing entry at the full destination path is a
`FileExistsError` (as in `shutil.copytree`), and a file in the way of an
intermediate directory is a `NotADirectoryError`. -/
mutual
def insertTree (path : List String) (tr : FsTree) (ts : List FsTree) :
    Except PyErr (List FsTree) :=
  match path with
  | [] => .error .fileExistsError
  | [c] =>
    if ts.any (fun x => x.name = c) then .error .fileExistsError
    else .ok (ts ++ [tr])
  | c :: rest => insertTreeGo c rest tr ts
termination_by (path.length, ts.length + 1)

def insertTreeGo (c : String) (rest : List String) (tr : FsTree)
    (ts : List FsTree) : Except PyErr (List FsTree) :=
  match ts with
  | [] => .ok [buildChain (c :: rest) tr]
  | .dir n ch :: ts2 =>
    if n = c then
      match insertTree rest tr ch with
      | .ok ch2 => .ok (.dir n ch2 :: ts2)
      | .error e => .error e
    else
      match insertTreeGo c rest tr ts2 with
      | .ok ts3 => .ok (.dir n ch :: ts3)
      | .error e => .error e
  | .file n cc :: ts2 =>
    if n = c then .error .notADirectoryError
    else
      match insertTreeGo c rest tr ts2 with
      | .ok ts3 => .ok (.file n cc :: ts3)
      | .error e => .error e
termination_by (rest.length + 1, ts.length)
end

/- Placing one extracted archive member (a `/`-separated member path with its
content) into a forest, creating directories as needed — the effect of
`zipfile` extraction on the scratch directory. -/
mutual
def insertFilePath (path : List String) (content : String) (ts : List FsTree) :
    List FsTree :=
  match path with
  | [] => ts
  | [f] => copy2ToDir f content ts
  | d :: rest => insertFilePathGo d rest content ts
termination_by (path.length, ts.length + 1)

def insertFilePathGo (d : String) (rest : List String) (content : String)
    (ts : List FsTree) : List FsTree :=
  match ts with
  | [] => [.dir d (insertFilePath rest content [])]
  | .dir n ch :: ts2 =>
    if n = d then .dir n (insertFilePath rest content ch) :: ts2
    else .dir n ch :: insertFilePathGo d rest content ts2
  | .file n c :: ts2 =>
    if n = d then .file n c :: ts2
    else .file n c :: insertFilePathGo d rest content ts2
termination_by (rest.length + 1, ts.length)
end

/-- The forest reconstructed from a list of extracted members. -/
def forestOfMembers (members : List (String × String)) : List FsTree :=
  members.foldl (fun ts m => insertFilePath (pathComponents m.1) m.2 ts) []

/-- The sub-forest found at a component path inside a forest. -/
def subforestAt : List String → List FsTree → List FsTree
  | [], ts => ts
  | c :: rest, ts =>
    match ts.find? (fun t => t.name = c) with
    | some (.dir _ ch) => subforestAt rest ch
    | _ => []

/- ----------------------------------------------------------------------
Module namespace and the `pjoin`/`ensurePathFormat` helpers
(source lines 1-12 and 20-26).
---------------------------------------------------------------------- -/

/-- The names bound at module level in `nsist/copymodules.py`: its imports
(lines 1-12) and its own top-level definitions.  `re` is NOT among them —
nothing in the module imports `re`. -/
def module_globals : List String :=
  ["importlib", "os", "shutil", "sys", "tempfile", "zipfile", "zipimport",
   "fnmatch", "partial", "normalize_path", "PY2", "running_python",
   "ExtensionModuleMismatch", "pjoin", "ensurePathFormat",
   "extensionmod_errmsg", "check_ext_mod", "check_package_for_ext_mods",
   "copy_zipmodule", "copytree_ignore_callback", "ModuleCopier",
   "copy_modules"]

/-- Representative CPython builtin names consulted after module globals
during name resolution.  `re` is a standard-library module that must be
imported to be visible; it is not a builtin. -/
def python_builtins : List String :=
  ["len", "str", "int", "open", "set", "any", "all", "isinstance", "print",
   "range", "AssertionError", "ImportError", "KeyError", "NameError"]

/-- Python name resolution for a free global reference inside this module:
defined if the name is a module global or a builtin, `NameError` otherwise. -/
def lookupGlobal (nm : String) : Except PyErr Unit :=
  if nm ∈ module_globals ∨ nm ∈ python_builtins then .ok ()
  else .error (.nameError ("name '" ++ nm ++ "' is not defined"))

/-- The substitution `re.sub("[/\\](?!\\)", "\\\\", oldPath)` the source
intends: escape each separator not already followed by a backslash.  Only
reachable if the name `re` resolves. -/
def reSubSep : List Char → List Char
  | [] => []
  | c :: rest =>
    if (c = '/' ∨ c = '\\') ∧ rest.head? ≠ some '\\' then
      '\\' :: '\\' :: reSubSep rest
    else c :: reSubSep rest

/-- Source lines 24-26, `ensurePathFormat(oldPath)`: evaluating the body
first resolves the free name `re`; the module never imports `re`, so the
call raises `NameError` before any substitution happens. -/
def ensurePathFormat (oldPath : String) : Except PyErr String :=
  match lookupGlobal "re" with
  | .error e => .error e
  | .ok _ => .ok ⟨reSubSep oldPath.data⟩

/-- Source lines 20-22, `pjoin(*args)` (used with two arguments):
`os.path.join` then `ensurePathFormat`. -/
def pjoin (a b : String) : Except PyErr String :=
  ensurePathFormat (os_path_join a b)

/-- Every `pjoin` call raises `NameError` for `re`. -/
theorem pjoin_error (a b : String) :
    pjoin a b = .error (.nameError "name 're' is not defined") := rfl

/- ----------------------------------------------------------------------
`copy_zipmodule` (source lines 60-83).
---------------------------------------------------------------------- -/

/-- The part of a `zipimport.zipimporter` loader that `copy_zipmodule`
consults, specialized to the module name being copied: `loader.archive`,
the value of `loader.get_filename(modname)`, and
`loader.is_package(modname)`. -/
structure ZipImporterModel where
  archive : String
  getFilename : String
  isPackage : Bool

/-- Observable result of one `copy_zipmodule` call: the members extracted
into the scratch temporary directory (`zf.extractall` / `zf.extract`), the
target listing afterwards, whether the temporary directory was created
(`tempfile.mkdtemp` ran) and whether it was removed (`shutil.rmtree` ran),
and the call's outcome. -/
structure ZipResult where
  scratch : List (String × String)
  target : List FsTree
  tempdirCreated : Bool
  tempdirRemoved : Bool
  outcome : Except PyErr Unit

/-- The fresh directory name `tempfile.mkdtemp()` returns in the model. -/
def tempdir_path : String := "/tmp/scratch"

/-- Source lines 60-83, `copy_zipmodule(loader, modname, target)`.
`zmembers` is the archive's content (`zipfile.ZipFile(loader.archive)`):
member path paired with member content, `zf.namelist()` being the paths.
The target directory is threaded both as the path string the source passes
around and as the listing of its contents.  Each Python `assert` raises
`AssertionError` when false; `zf.extract` of a missing member raises
`KeyError`; `shutil.rmtree(tempdir)` runs only as the last statement. -/
def copy_zipmodule (zmembers : List (String × String)) (loader : ZipImporterModel)
    (modname : String) (targetPath : String) (targetTree : List FsTree) : ZipResult :=
  let file := loader.getFilename
  if pyStartsWith file loader.archive then
    let path_in_zip : String := ⟨file.data.drop (loader.archive.data.length + 1)⟩
    if loader.isPackage then
      let pr := os_path_split path_in_zip
      if pyStartsWith pr.2 "__init__" then
        let pkgfiles := zmembers.filter (fun m => pyStartsWith m.1 pr.1)
        match pjoin tempdir_path pr.1, pjoin targetPath modname with
        | .ok _, .ok _ =>
          match insertTree [modname]
              (FsTree.dir modname (subforestAt (pathComponents pr.1) (forestOfMembers pkgfiles)))
              targetTree with
          | .ok t2 =>
            { scratch := pkgfiles, target := t2, tempdirCreated := true,
              tempdirRemoved := true, outcome := .ok () }
          | .error e =>
            { scratch := pkgfiles, target := targetTree, tempdirCreated := true,
              tempdirRemoved := false, outcome := .error e }
        | .error e, _ =>
          { scratch := pkgfiles, target := targetTree, tempdirCreated := true,
            tempdirRemoved := false, outcome := .error e }
        | .ok _, .error e =>
          { scratch := pkgfiles, target := targetTree, tempdirCreated := true,
            tempdirRemoved := false, outcome := .error e }
      else
        { scratch := [], target := targetTree, tempdirCreated := true,
          tempdirRemoved := false, outcome := .error .assertionError }
    else
      match zmembers.find? (fun m => m.1 = path_in_zip) with
      | none =>
        { scratch := [], target := targetTree, tempdirCreated := true,
          tempdirRemoved := false, outcome := .error (.keyError path_in_zip) }
      | some m =>
        match pjoin tempdir_path path_in_zip with
        | .error e =>
          { scratch := [m], target := targetTree, tempdirCreated := true,
            tempdirRemoved := false, outcome := .error e }
        | .ok src =>
          { scratch := [m], target := copy2ToDir (os_basename src) m.2 targetTree,
            tempdirCreated := true, tempdirRemoved := true, outcome := .ok () }
  else
    { scratch := [], target := targetTree, tempdirCreated := false,
      tempdirRemoved := false, outcome := .error .assertionError }

/-- The two asserts of `copy_zipmodule` plus, for the single-module case,
presence of the member in the archive: the conditions under which the call
reaches its `pjoin` use. -/
def zipAssertsPass (zmembers : List (String × String)) (loader : ZipImporterModel) : Bool :=
  pyStartsWith loader.getFilename loader.archive &&
    (let path_in_zip : String :=
      ⟨loader.getFilename.data.drop (loader.archive.data.length + 1)⟩
     if loader.isPackage then
       pyStartsWith (os_path_split path_in_zip).2 "__init__"
     else
       zmembers.any (fun m => m.1 = path_in_zip))

/-- Master behavior of `copy_zipmodule` as written: the temporary directory
is never removed, the target is never modified, the outcome is always an
exception, and whenever both asserts pass (and, for the single-module case,
the member exists) that exception is the `NameError` for `re` raised by
`pjoin` before any data reaches the target. -/
theorem copy_zipmodule_run (zmembers : List (String × String))
    (loader : ZipImporterModel) (modname targetPath : String)
    (targetTree : List FsTree) :
    (copy_zipmodule zmembers loader modname targetPath targetTree).tempdirRemoved = false
    ∧ (copy_zipmodule zmembers loader modname targetPath targetTree).target = targetTree
    ∧ (∃ e, (copy_zipmodule zmembers loader modname targetPath targetTree).outcome = .error e)
    ∧ (zipAssertsPass zmembers loader = true →
        (copy_zipmodule zmembers loader modname targetPath targetTree).outcome
          = .error (.nameError "name 're' is not defined")) := by
  unfold copy_zipmodule zipAssertsPass
  by_cases h1 : pyStartsWith loader.getFilename loader.archive = true
  · rw [if_pos h1]
    by_cases hp : loader.isPackage = true
    · rw [if_pos hp]
      by_cases h2 : pyStartsWith
          (os_path_split ⟨loader.getFilename.data.drop (loader.archive.data.length + 1)⟩).2
          "__init__" = true
      · rw [if_pos h2, pjoin_error, pjoin_error]
        exact ⟨rfl, rfl, ⟨_, rfl⟩, fun _ => rfl⟩
      · rw [if_neg h2]
        refine ⟨rfl, rfl, ⟨_, rfl⟩, ?_⟩
        intro hap
        rw [Bool.and_eq_true] at hap
        rw [if_pos hp] at hap
        exact absurd hap.2 h2
    · rw [if_neg hp]
      cases hf : List.find? (fun m => m.1
          = (⟨loader.getFilename.data.drop (loader.archive.data.length + 1)⟩ : String))
          zmembers with
      | none =>
        refine ⟨rfl, rfl, ⟨_, rfl⟩, ?_⟩
        intro hap
        rw [Bool.and_eq_true] at hap
        rw [if_neg hp] at hap
        have := List.any_eq_true.mp hap.2
        obtain ⟨m, hm, hmp⟩ := this
        have : (List.find? (fun m => m.1
            = (⟨loader.getFilename.data.drop (loader.archive.data.length + 1)⟩ : String))
            zmembers).isSome = true :=
          List.find?_isSome.mpr ⟨m, hm, hmp⟩
        rw [hf] at this
        cases this
      | some m =>
        rw [pjoin_error]
        exact ⟨rfl, rfl, ⟨_, rfl⟩, fun _ => rfl⟩
  · rw [if_neg h1]
    refine ⟨rfl, rfl, ⟨_, rfl⟩, ?_⟩
    intro hap
    rw [Bool.and_eq_true] at hap
    exact absurd hap.1 h1

/-- C1 counterexample: a concrete archive-backed package for which both
asserts pass, yet `copy_zipmodule` exits (with an exception) while the
scratch temporary directory it created is still present — the cleanup at the
end of the function is not in a `finally`-equivalent block, so no failure
path deletes it. -/
theorem C1_counterexample :
    (copy_zipmodule [("pkg/__init__.py", "i"), ("pkg/a.pyc", "b")]
        ⟨"/z.zip", "/z.zip/pkg/__init__.py", true⟩ "pkg" "/build/pkgs" []).tempdirCreated = true
    ∧ (copy_zipmodule [("pkg/__init__.py", "i"), ("pkg/a.pyc", "b")]
        ⟨"/z.zip", "/z.zip/pkg/__init__.py", true⟩ "pkg" "/build/pkgs" []).tempdirRemoved = false
    ∧ (copy_zipmodule [("pkg/__init__.py", "i"), ("pkg/a.pyc", "b")]
        ⟨"/z.zip", "/z.zip/pkg/__init__.py", true⟩ "pkg" "/build/pkgs" []).outcome
      = .error (.nameError "name 're' is not defined") :=
  ⟨rfl, rfl, rfl⟩

/-- C1 amended: the scratch temporary directory would be deleted only on a
fully successful run (`shutil.rmtree` is the function's last statement, not
in a `finally` block), and as the code stands every call of `copy_zipmodule`
exits with an exception — so the scratch directory is never removed, on any
path. -/
theorem C1_zip_tempdir_leaks (zmembers : List (String × String))
    (loader : ZipImporterModel) (modname targetPath : String)
    (targetTree : List FsTree) :
    (copy_zipmodule zmembers loader modname targetPath targetTree).tempdirRemoved = false
    ∧ ∃ e, (copy_zipmodule zmembers loader modname targetPath targetTree).outcome
        = .error e :=
  ⟨(copy_zipmodule_run zmembers loader modname targetPath targetTree).1,
    (copy_zipmodule_run zmembers loader modname targetPath targetTree).2.2.1⟩

/-- C10: for every archive-backed unit whose loader data passes the asserts
(and whose member exists, in the single-module case), `copy_zipmodule`
raises the unresolved-name error for `re` — `pjoin` calls `ensurePathFormat`,
which references `re` though the module never imports it — so the copy never
completes and the target directory receives nothing. -/
theorem C10_pjoin_nameerror (zmembers : List (String × String))
    (loader : ZipImporterModel) (modname targetPath : String)
    (targetTree : List FsTree) (h : zipAssertsPass zmembers loader = true) :
    (copy_zipmodule zmembers loader modname targetPath targetTree).outcome
      = .error (.nameError "name 're' is not defined")
    ∧ (copy_zipmodule zmembers loader modname targetPath targetTree).target
      = targetTree :=
  ⟨(copy_zipmodule_run zmembers loader modname targetPath targetTree).2.2.2 h,
    (copy_zipmodule_run zmembers loader modname targetPath targetTree).2.1⟩

theorem C10_pjoin_nameerror_witness :
    (copy_zipmodule [("m.py", "conts")] ⟨"/z.zip", "/z.zip/m.py", false⟩
        "m" "/build/pkgs" []).outcome = .error (.nameError "name 're' is not defined")
    ∧ (copy_zipmodule [("m.py", "conts")] ⟨"/z.zip", "/z.zip/m.py", false⟩
        "m" "/build/pkgs" []).target = [] :=
  C10_pjoin_nameerror [("m.py", "conts")] ⟨"/z.zip", "/z.zip/m.py", false⟩
    "m" "/build/pkgs" [] (by decide)

/-- C7 counterexample: the archive-package extraction performs no `.pyc`
filtering.  For a concrete archive whose package contains `pkg/a.pyc`, the
member-selection of `copy_zipmodule` (line 75) includes that member, and
`zf.extractall` copies it into the scratch directory; the subsequent
`copytree` into the target carries no ignore argument, so nothing on the
archive path omits `*.pyc` files — contradicting the claim that every
storage kind's directory copy excludes them. -/
theorem C7_counterexample :
    ("pkg/a.pyc", "b") ∈ (copy_zipmodule [("pkg/__init__.py", "i"), ("pkg/a.pyc", "b")]
        ⟨"/z.zip", "/z.zip/pkg/__init__.py", true⟩ "pkg" "/stage/pkgs" []).scratch
    ∧ globMatch "*.pyc".data "pkg/a.pyc".data = true := by
  constructor
  · decide
  · rw [globPyc_iff]
    exact ⟨"pkg/a".data, by decide⟩

/- ----------------------------------------------------------------------
`check_package_for_ext_mods` (source lines 47-58).

Directory paths are modelled as component lists of normalized absolute
paths: `os.walk(path)` on an absolute `path` yields absolute `dirpath`s, for
which the source's `os.path.join(path, dirpath)` is `dirpath` itself, and
`abspath(realpath(...))` is the identity on the already-normalized paths of
the model.
---------------------------------------------------------------------- -/

/-- Names of the files directly inside a forest (the `filenames` of one
`os.walk` step). -/
def filesOf (ts : List FsTree) : List String :=
  ts.filterMap (fun t => match t with | .file n _ => some n | .dir _ _ => none)

/- Model of `os.walk` (top-down): the directory itself first, then each
subdirectory's walk in order. -/
mutual
def walkTree (root : List String) (ts : List FsTree) :
    List (List String × List String) :=
  (root, filesOf ts) :: walkSubs root ts
termination_by (sizeOf ts, 1)

def walkSubs (root : List String) (ts : List FsTree) :
    List (List String × List String) :=
  match ts with
  | [] => []
  | .file _ _ :: rest => walkSubs root rest
  | .dir n ch :: rest => walkTree (root ++ [n]) ch ++ walkSubs root rest
termination_by (sizeOf ts, 0)
end

/-- Longest common component prefix of two component paths:
`os.path.commonpath([a, b])` for normalized absolute paths, with
`os.path.commonpath([a]) = a`. -/
def commonPath2 : List String → List String → List String
  | x :: xs, y :: ys => if x = y then x :: commonPath2 xs ys else []
  | _, _ => []

/-- The path string passed to `check_ext_mod`:
`os.path.join(formattedPath, filename)`. -/
def renderFile (d : List String) (f : String) : String :=
  "/" ++ String.intercalate "/" d ++ "/" ++ f

/-- The skip test of source lines 53-55: a nonempty ignore list, one of whose
entries satisfies `os.path.commonpath([item]) ==
os.path.commonpath([item, formattedPath])`. -/
def cpemSkip (ignore : List (List String)) (d : List String) : Bool :=
  !ignore.isEmpty && ignore.any (fun item => decide (item = commonPath2 item d))

/-- The inner loop of lines 57-58: check every file of one directory,
stopping at the first mismatch. -/
def checkFiles (d : List String) (files : List String) (tp rp : String) :
    Except PyErr Unit :=
  match files with
  | [] => .ok ()
  | f :: rest =>
    match check_ext_mod (renderFile d f) tp rp with
    | .ok _ => checkFiles d rest tp rp
    | .error e => .error e

/-- The walk loop of lines 51-58 over an already-computed walk listing. -/
def cpemRun (tp rp : String) (ignore : List (List String)) :
    List (List String × List String) → Except PyErr Unit
  | [] => .ok ()
  | df :: rest =>
    if cpemSkip ignore df.1 then cpemRun tp rp ignore rest
    else
      match checkFiles df.1 df.2 tp rp with
      | .ok _ => cpemRun tp rp ignore rest
      | .error e => .error e

/-- Source lines 47-58, `check_package_for_ext_mods(path, target_python,
ignore)`: walk the tree rooted at `root`, skipping each directory matched by
the ignore test, and run `check_ext_mod` on every file of every remaining
directory.  (`ignore = ignore or []` is handled by the caller passing `[]`
for an absent entry.) -/
def check_package_for_ext_mods (root : List String) (ts : List FsTree)
    (target_python running_python : String) (ignore : List (List String)) :
    Except PyErr Unit :=
  cpemRun target_python running_python ignore (walkTree root ts)

/-- Specification observer: the (directory, file) pairs the walk loop
examines. -/
def cpemChecked (ignore : List (List String)) :
    List (List String × List String) → List (List String × String)
  | [] => []
  | df :: rest =>
    if cpemSkip ignore df.1 then cpemChecked ignore rest
    else df.2.map (fun f => (df.1, f)) ++ cpemChecked ignore rest

/-- Specification observer: run `check_ext_mod` over an explicit list of
(directory, file) pairs. -/
def runChecks (tp rp : String) : List (List String × String) → Except PyErr Unit
  | [] => .ok ()
  | df :: rest =>
    match check_ext_mod (renderFile df.1 df.2) tp rp with
    | .ok _ => runChecks tp rp rest
    | .error e => .error e

theorem commonPath2_eq_iff (a b : List String) :
    (a = commonPath2 a b) ↔ a <+: b := by
  induction a generalizing b with
  | nil =>
    cases b <;> simp [commonPath2]
  | cons x xs ih =>
    cases b with
    | nil => simp [commonPath2]
    | cons y ys =>
      by_cases hxy : x = y
      · subst hxy
        rw [commonPath2, if_pos rfl]
        simp only [List.cons.injEq, List.cons_prefix_cons, true_and]
        rw [← ih ys]
      · rw [commonPath2, if_neg hxy]
        simp [List.cons_prefix_cons, hxy]

theorem cpemSkip_iff (ignore : List (List String)) (d : List String)
    (hig : ignore ≠ []) :
    cpemSkip ignore d = true ↔ ∃ i ∈ ignore, i <+: d := by
  unfold cpemSkip
  have h1 : (!ignore.isEmpty) = true := by
    cases ignore with
    | nil => exact absurd rfl hig
    | cons a l => rfl
  rw [h1, Bool.true_and, List.any_eq_true]
  constructor
  · rintro ⟨i, hi, hp⟩
    exact ⟨i, hi, (commonPath2_eq_iff i d).mp (by simpa using hp)⟩
  · rintro ⟨i, hi, hp⟩
    exact ⟨i, hi, by simpa using (commonPath2_eq_iff i d).mpr hp⟩

theorem mem_cpemChecked (ignore : List (List String))
    (l : List (List String × List String)) (d : List String) (f : String) :
    (d, f) ∈ cpemChecked ignore l
      ↔ ∃ fs, (d, fs) ∈ l ∧ f ∈ fs ∧ cpemSkip ignore d = false := by
  induction l with
  | nil => simp [cpemChecked]
  | cons df rest ih =>
    by_cases hskip : cpemSkip ignore df.1 = true
    · rw [cpemChecked, if_pos hskip, ih]
      constructor
      · rintro ⟨fs, hm, hf, hns⟩
        exact ⟨fs, List.mem_cons_of_mem _ hm, hf, hns⟩
      · rintro ⟨fs, hm, hf, hns⟩
        rcases List.mem_cons.mp hm with he | hm2
        · have hd : d = df.1 := congrArg Prod.fst he
          rw [hd] at hns
          rw [hns] at hskip
          cases hskip
        · exact ⟨fs, hm2, hf, hns⟩
    · rw [cpemChecked, if_neg hskip]
      rw [Bool.not_eq_true] at hskip
      constructor
      · intro hm
        rcases List.mem_append.mp hm with hmap | hrest
        · obtain ⟨f0, hf0, heq⟩ := List.mem_map.mp hmap
          have hd : d = df.1 := (congrArg Prod.fst heq).symm
          have hf : f = f0 := (congrArg Prod.snd heq).symm
          subst hd
          subst hf
          exact ⟨df.2, List.mem_cons_self _ _, hf0, hskip⟩
        · obtain ⟨fs, hm2, hf, hns⟩ := ih.mp hrest
          exact ⟨fs, List.mem_cons_of_mem _ hm2, hf, hns⟩
      · rintro ⟨fs, hm, hf, hns⟩
        rcases List.mem_cons.mp hm with he | hm2
        · apply List.mem_append_left
          have hd : d = df.1 := congrArg Prod.fst he
          have hfs : fs = df.2 := congrArg Prod.snd he
          subst hd
          apply List.mem_map.mpr
          exact ⟨f, hfs ▸ hf, rfl⟩
        · exact List.mem_append_right _ (ih.mpr ⟨fs, hm2, hf, hns⟩)

theorem checkFiles_eq (d : List String) (fs : List String) (tp rp : String) :
    checkFiles d fs tp rp = runChecks tp rp (fs.map (fun f => (d, f))) := by
  induction fs with
  | nil => rfl
  | cons f rest ih =>
    rw [checkFiles, List.map_cons, runChecks]
    cases check_ext_mod (renderFile d f) tp rp with
    | ok u => simpa using ih
    | error e => rfl

theorem runChecks_append (tp rp : String) (a b : List (List String × String)) :
    runChecks tp rp (a ++ b)
      = match runChecks tp rp a with
        | .ok _ => runChecks tp rp b
        | .error e => .error e := by
  induction a with
  | nil => rfl
  | cons df rest ih =>
    rw [List.cons_append, runChecks, runChecks]
    cases check_ext_mod (renderFile df.1 df.2) tp rp with
    | ok u => exact ih
    | error e => rfl

theorem cpemRun_eq (tp rp : String) (ignore : List (List String))
    (l : List (List String × List String)) :
    cpemRun tp rp ignore l = runChecks tp rp (cpemChecked ignore l) := by
  induction l with
  | nil => rfl
  | cons df rest ih =>
    by_cases hskip : cpemSkip ignore df.1 = true
    · rw [cpemRun, if_pos hskip, cpemChecked, if_pos hskip, ih]
    · rw [cpemRun, if_neg hskip, cpemChecked, if_neg hskip,
        runChecks_append, ← checkFiles_eq]
      cases checkFiles df.1 df.2 tp rp with
      | ok u => exact ih
      | error e => rfl

/-- C8: when `check_package_for_ext_mods` scans a package tree with a
non-empty ignore set, a walked directory is examined exactly when its
normalized absolute path is NOT contained component-wise under some ignore
entry (list-prefix containment, not string prefix — so a sibling such as
`/a/bexp` is still scanned for ignore entry `/a/b`), and the function is
precisely `check_ext_mod` run over every file of every non-ignored walked
directory. -/
theorem C8_ignore_containment (root : List String) (ts : List FsTree)
    (tp rp : String) (ignore : List (List String)) (hig : ignore ≠ []) :
    (∀ d f, (d, f) ∈ cpemChecked ignore (walkTree root ts)
        ↔ ∃ fs, (d, fs) ∈ walkTree root ts ∧ f ∈ fs
            ∧ ¬ ∃ i ∈ ignore, i <+: d)
      ∧ check_package_for_ext_mods root ts tp rp ignore
          = runChecks tp rp (cpemChecked ignore (walkTree root ts)) := by
  constructor
  · intro d f
    rw [mem_cpemChecked]
    have hsk := cpemSkip_iff ignore d hig
    constructor
    · rintro ⟨fs, hm, hf, hns⟩
      refine ⟨fs, hm, hf, ?_⟩
      intro hex
      rw [hsk.mpr hex] at hns
      cases hns
    · rintro ⟨fs, hm, hf, hne⟩
      refine ⟨fs, hm, hf, ?_⟩
      cases hval : cpemSkip ignore d with
      | false => rfl
      | true => exact absurd (hsk.mp hval) hne
  · exact cpemRun_eq tp rp ignore (walkTree root ts)

theorem C8_ignore_containment_witness :
    (["a", "bexp"], "y.py") ∈ cpemChecked [["a", "b"]]
        (walkTree ["a"] [FsTree.dir "b" [FsTree.file "x.so" "s"],
          FsTree.dir "bexp" [FsTree.file "y.py" "s2"]])
    ∧ ¬ ((["a", "b"], "x.so") ∈ cpemChecked [["a", "b"]]
        (walkTree ["a"] [FsTree.dir "b" [FsTree.file "x.so" "s"],
          FsTree.dir "bexp" [FsTree.file "y.py" "s2"]])) := by
  have hw : walkTree ["a"] [FsTree.dir "b" [FsTree.file "x.so" "s"],
      FsTree.dir "bexp" [FsTree.file "y.py" "s2"]]
      = [(["a"], []), (["a", "b"], ["x.so"]), (["a", "bexp"], ["y.py"])] := by
    simp [walkTree, walkSubs, filesOf]
  have hmain := C8_ignore_containment ["a"]
    [FsTree.dir "b" [FsTree.file "x.so" "s"], FsTree.dir "bexp" [FsTree.file "y.py" "s2"]]
    "3.8" "3.8" [["a", "b"]] (by decide)
  constructor
  · apply (hmain.1 ["a", "bexp"] "y.py").mpr
    refine ⟨["y.py"], ?_, by decide, ?_⟩
    · rw [hw]; decide
    · rintro ⟨i, hi, hp⟩
      rw [List.mem_singleton] at hi
      subst hi
      obtain ⟨t, ht⟩ := hp
      have h1 := congrArg (fun l => List.getD l 1 "") ht
      simp [List.getD] at h1
  · intro hmem
    obtain ⟨fs, hm, hf, hne⟩ := (hmain.1 ["a", "b"] "x.so").mp hmem
    exact hne ⟨["a", "b"], by decide, ⟨[], by decide⟩⟩

/- ----------------------------------------------------------------------
`ModuleCopier` (source lines 105-171) and `copy_modules` (lines 174-198).
---------------------------------------------------------------------- -/

/-- The loader object `importlib.machinery.PathFinder.find_spec` hands back,
as far as `ModuleCopier.copy` consults it: an
`importlib.machinery.ExtensionFileLoader` with its `path`, another
`importlib.abc.FileLoader` with its `get_filename(modname)` value and
`is_package(modname)` flag, or a `zipimport.zipimporter` with the data of
`ZipImporterModel`. -/
inductive Loader where
  | extensionFile (path : String)
  | sourceFile (filename : String) (pkgFlag : Bool)
  | zipImp (z : ZipImporterModel)

/-- `loader.is_package(modname)`. -/
def Loader.isPkg : Loader → Bool
  | .extensionFile _ => false
  | .sourceFile _ b => b
  | .zipImp z => z.isPackage

/-- The interpreter-state oracle the copier consults: module resolution
(`PathFinder.find_spec` over a search path: `none` = not found, `some none` =
spec with no loader, i.e. namespace package), directory contents, file
contents, `os.path.samefile` identity, archive contents, and the running
interpreter version. -/
structure PyEnv where
  findSpec : List String → String → Option (Option Loader)
  dirTree : String → List FsTree
  fileContent : String → String
  samefile : String → String → Bool
  zipMembers : String → List (String × String)
  running_python : String

/-- Source lines 111-113: the copier's construction data.  The implicit
`[''] + sys.path` default for an absent path is the caller's concern: the
model always receives the effective search path. -/
structure ModuleCopier where
  py_version : String
  path : List String

/-- Top-level entry of a directory listing with the given name
(`os.listdir` membership plus the entry itself). -/
def lookupName (nm : String) (ts : List FsTree) : Option FsTree :=
  ts.find? (fun t => t.name = nm)

/-- Entry at a component path below a directory listing. -/
def lookupAtPath : List String → List FsTree → Option FsTree
  | [], _ => none
  | [c], ts => lookupName c ts
  | c :: rest, ts =>
    match lookupName c ts with
    | some (.dir _ ch) => lookupAtPath rest ch
    | _ => none

/-- Source lines 115-171, `ModuleCopier.copy(modname, target, exclude,
packages_extraPath, packages_ignorePath)`.  Dicts are association lists
(Python dicts iterate in insertion order; the `for ... else` of lines
148-153 takes the first `os.path.samefile` match).  The `ignore or []` of
`check_package_for_ext_mods` and the `packages_ignorePath.get(modname,
None)` of line 146 combine into a `getD []` lookup.  Ignore paths are
component lists of normalized absolute paths (lines 184-185 normalize them
before the call; `abspath∘realpath` is the identity on the model's paths). -/
def ModuleCopier.copy (mc : ModuleCopier) (env : PyEnv) (modname : String)
    (targetPath : String) (target : List FsTree) (exclude : List String)
    (packages_extraPath : List (String × String))
    (packages_ignorePath : List (String × List (List String))) :
    Except PyErr (List FsTree) :=
  match env.findSpec mc.path modname with
  | none => .error (.importError ("Could not find " ++ modname))
  | some none => .error (.importError ("Cannot bundle namespace package " ++ modname))
  | some (some loader) =>
    let pkg := loader.isPkg
    match loader with
    | .extensionFile p =>
      match check_ext_mod p mc.py_version env.running_python with
      | .error e => .error e
      | .ok _ => .ok (copy2ToDir (os_basename p) (env.fileContent p) target)
    | .sourceFile file _ =>
      if pkg then
        let pr := os_path_split file
        if pyStartsWith pr.2 "__init__" then
          match check_package_for_ext_mods (pathComponents pr.1) (env.dirTree pr.1)
              mc.py_version env.running_python
              (((packages_ignorePath.find? (fun kv => kv.1 = modname)).map Prod.snd).getD []) with
          | .error e => .error e
          | .ok _ =>
            let dest :=
              match packages_extraPath.find? (fun kv => env.samefile kv.1 pr.1) with
              | some kv => pathComponents kv.2 ++ [modname]
              | none => [modname]
            if exclude.isEmpty then
              insertTree dest
                (FsTree.dir modname
                  (copyDir (ignore_patterns_cb ["*.pyc"]) pr.1 (env.dirTree pr.1)))
                target
            else
              insertTree dest
                (FsTree.dir modname
                  (copyDir (copytree_ignore_callback exclude pr.1 modname) pr.1
                    (env.dirTree pr.1)))
                target
        else .error .assertionError
      else .ok (copy2ToDir (os_basename file) (env.fileContent file) target)
    | .zipImp z =>
      let zr := copy_zipmodule (env.zipMembers z.archive) z modname targetPath target
      match zr.outcome with
      | .ok _ => .ok zr.target
      | .error e => .error e

/-- Result of one `copy_modules` batch: the target listing, the names for
which a copy completed (in order, with repetitions), whether the placeholder
file was written, and the batch outcome (the first exception, if any). -/
structure CopyModulesResult where
  target : List FsTree
  copied : List String
  placeholderWritten : Bool
  outcome : Except PyErr Unit

/-- The placeholder content of source lines 197-198. -/
def placeholder_text : String :=
  "This file only exists so NSIS finds something in this directory."

/-- The loop of source lines 189-193: skip names whose stem is in the
pre-computed listing, otherwise copy; the first exception aborts the batch
with the state reached so far. -/
def copyModulesLoop (mc : ModuleCopier) (env : PyEnv) (targetPath : String)
    (exclude : List String) (packages_extraPath : List (String × String))
    (packages_ignorePath : List (String × List (List String)))
    (stems : List String) :
    List String → List FsTree → List String
      → List FsTree × List String × Except PyErr Unit
  | [], t, log => (t, log, .ok ())
  | m :: rest, t, log =>
    if m ∈ stems then
      copyModulesLoop mc env targetPath exclude packages_extraPath
        packages_ignorePath stems rest t log
    else
      match ModuleCopier.copy mc env m targetPath t exclude packages_extraPath
          packages_ignorePath with
      | .ok t2 =>
        copyModulesLoop mc env targetPath exclude packages_extraPath
          packages_ignorePath stems rest t2 (log ++ [m])
      | .error e => (t, log, .error e)

/-- Source lines 174-198, `copy_modules(modnames, target, py_version, path,
exclude, packages_extraPath, packages_ignorePath)`: build the copier,
snapshot the extension-stripped top-level listing of the target ONCE, run
the loop, and, when the requested list is empty, write the placeholder
file. -/
def copy_modules (env : PyEnv) (modnames : List String) (targetPath : String)
    (target : List FsTree) (py_version : String) (path : List String)
    (exclude : List String) (packages_extraPath : List (String × String))
    (packages_ignorePath : List (String × List (List String))) :
    CopyModulesResult :=
  let mc : ModuleCopier := ⟨py_version, path⟩
  let files_in_target_noext := target.map (fun t => (splitext t.name).1)
  let res := copyModulesLoop mc env targetPath exclude packages_extraPath
    packages_ignorePath files_in_target_noext modnames target []
  if modnames.isEmpty then
    { target := upsertFile "placeholder" placeholder_text res.1,
      copied := res.2.1, placeholderWritten := true, outcome := res.2.2 }
  else
    { target := res.1, copied := res.2.1, placeholderWritten := false,
      outcome := res.2.2 }

theorem upsertFile_ne_nil (nm c : String) (ts : List FsTree) :
    upsertFile nm c ts ≠ [] := by
  cases ts with
  | nil => simp [upsertFile]
  | cons t rest =>
    rw [upsertFile]
    by_cases h : t.name = nm
    · rw [if_pos h]; simp
    · rw [if_neg h]; simp

theorem upsertFile_count (nm c : String) (ts : List FsTree)
    (hnd : (ts.map FsTree.name).Nodup) :
    ((upsertFile nm c ts).filter (fun t => t.name = nm)).length = 1 := by
  induction ts with
  | nil => simp [upsertFile, FsTree.name]
  | cons t rest ih =>
    rw [upsertFile]
    rw [List.map_cons, List.nodup_cons] at hnd
    by_cases h : t.name = nm
    · rw [if_pos h]
      have hfil : rest.filter (fun t => t.name = nm) = [] := by
        rw [List.filter_eq_nil_iff]
        intro x hx hxe
        have hxe2 : x.name = nm := of_decide_eq_true hxe
        apply hnd.1
        rw [h]
        have := List.mem_map_of_mem FsTree.name hx
        rwa [hxe2] at this
      rw [List.filter_cons, hfil]
      simp [FsTree.name]
    · rw [if_neg h]
      simp only [List.filter_cons, h]
      simp only [decide_eq_true_eq, h, if_false]
      exact ih hnd.2

/-- C6: calling `copy_modules` with an empty unit-name list writes exactly
one placeholder file into the target (so the target is non-empty on
completion); with a non-empty list no placeholder is written. -/
theorem C6_placeholder (env : PyEnv) (modnames : List String) (targetPath : String)
    (target : List FsTree) (py : String) (path : List String) (exclude : List String)
    (extraP : List (String × String)) (ignoreP : List (String × List (List String))) :
    (modnames = [] →
      (copy_modules env modnames targetPath target py path exclude extraP
        ignoreP).placeholderWritten = true
      ∧ (copy_modules env modnames targetPath target py path exclude extraP
          ignoreP).target = upsertFile "placeholder" placeholder_text target
      ∧ (copy_modules env modnames targetPath target py path exclude extraP
          ignoreP).target ≠ []
      ∧ ((target.map FsTree.name).Nodup →
          ((copy_modules env modnames targetPath target py path exclude extraP
            ignoreP).target.filter (fun t => t.name = "placeholder")).length = 1))
    ∧ (modnames ≠ [] →
        (copy_modules env modnames targetPath target py path exclude extraP
          ignoreP).placeholderWritten = false) := by
  constructor
  · rintro rfl
    exact ⟨rfl, rfl, upsertFile_ne_nil _ _ _,
      fun hnd => upsertFile_count _ _ _ hnd⟩
  · intro hne
    cases modnames with
    | nil => exact absurd rfl hne
    | cons a l => rfl

/-- A trivial interpreter environment (resolves nothing). -/
def envTriv : PyEnv :=
  ⟨fun _ _ => none, fun _ => [], fun _ => "", fun _ _ => false, fun _ => [], "3.8"⟩

theorem C6_placeholder_witness :
    (copy_modules envTriv [] "/t" [FsTree.file "x.py" "c"] "3.8" [] [] [] []).placeholderWritten
      = true
    ∧ (copy_modules envTriv [] "/t" [FsTree.file "x.py" "c"] "3.8" [] [] [] []).target
        = upsertFile "placeholder" placeholder_text [FsTree.file "x.py" "c"]
    ∧ (copy_modules envTriv [] "/t" [FsTree.file "x.py" "c"] "3.8" [] [] [] []).target ≠ []
    ∧ ((copy_modules envTriv [] "/t" [FsTree.file "x.py" "c"] "3.8" [] [] [] []).target.filter
        (fun t => t.name = "placeholder")).length = 1 := by
  have h := (C6_placeholder envTriv [] "/t" [FsTree.file "x.py" "c"] "3.8" [] [] [] []).1 rfl
  exact ⟨h.1, h.2.1, h.2.2.1, h.2.2.2 (by simp [FsTree.name])⟩

/-- An environment with a single plain-file module `m`. -/
def envC5 : PyEnv :=
  ⟨fun _ n => if n = "m" then some (some (.sourceFile "/src/m.py" false)) else none,
   fun _ => [], fun _ => "code", fun _ _ => false, fun _ => [], "3.8"⟩

/-- C5 counterexample: the already-staged listing is computed once, before
the loop, so a batch whose request list contains the same unit name twice
copies that unit twice — the copy for `m` is performed at both occurrences
of `["m", "m"]` on an initially empty target. -/
theorem C5_counterexample :
    (copy_modules envC5 ["m", "m"] "/t" [] "3.8" [""] [] [] []).copied = ["m", "m"]
    ∧ (copy_modules envC5 ["m", "m"] "/t" [] "3.8" [""] [] [] []).copied.count "m" = 2 :=
  ⟨rfl, rfl⟩

theorem loop_count (mc : ModuleCopier) (env : PyEnv) (targetPath : String)
    (exclude : List String) (extraP : List (String × String))
    (ignoreP : List (String × List (List String))) (stems : List String)
    (m : String) :
    ∀ ms (t : List FsTree) (log : List String),
      ((copyModulesLoop mc env targetPath exclude extraP ignoreP stems ms t
          log).2.1.count m ≤ log.count m + ms.count m)
      ∧ (m ∈ stems →
        (copyModulesLoop mc env targetPath exclude extraP ignoreP stems ms t
          log).2.1.count m = log.count m) := by
  intro ms
  induction ms with
  | nil =>
    intro t log
    exact ⟨by simp [copyModulesLoop], fun _ => rfl⟩
  | cons n rest ih =>
    intro t log
    rw [copyModulesLoop]
    by_cases hn : n ∈ stems
    · rw [if_pos hn]
      refine ⟨le_trans (ih t log).1 ?_, fun hm => (ih t log).2 hm⟩
      rw [List.count_cons]
      omega
    · rw [if_neg hn]
      cases hc : ModuleCopier.copy mc env n targetPath t exclude extraP ignoreP with
      | ok t2 =>
        simp only
        have hb := (ih t2 (log ++ [n])).1
        have he := (ih t2 (log ++ [n])).2
        rcases eq_or_ne n m with rfl | hne
        · constructor
          · simp only [List.count_append, List.count_cons, List.count_nil] at hb ⊢
            simp only [beq_self_eq_true, if_pos] at hb ⊢
            omega
          · intro hm
            exact absurd hm hn
        · have hbe : (n == m) = false := beq_eq_false_iff_ne.mpr hne
          constructor
          · simp only [List.count_append, List.count_cons, List.count_nil,
              hbe, Bool.false_eq_true, if_false] at hb ⊢
            omega
          · intro hm
            rw [he hm, List.count_append]
            have hz : List.count m [n] = 0 :=
              List.count_eq_zero.mpr (by simp [Ne.symm hne])
            omega
      | error e =>
        simp only
        refine ⟨?_, fun _ => ?_⟩
        · rw [List.count_cons]
          omega
        · trivial

/-- C5 amended: within one batch, a unit is copied at most once per
OCCURRENCE of its name in the requested list, and not at all when its stem
was present in the target before the batch started; because the
already-staged set is snapshotted once before the loop, duplicate
occurrences of a name within one batch are each copied, so "at most once
per batch" fails for lists with repetitions (see the counterexample). -/
theorem C5_copy_once_per_occurrence (env : PyEnv) (modnames : List String)
    (targetPath : String) (target : List FsTree) (py : String)
    (path : List String) (exclude : List String)
    (extraP : List (String × String))
    (ignoreP : List (String × List (List String))) (m : String) :
    ((copy_modules env modnames targetPath target py path exclude extraP
        ignoreP).copied.count m ≤ modnames.count m)
    ∧ (m ∈ target.map (fun t => (splitext t.name).1) →
        (copy_modules env modnames targetPath target py path exclude extraP
          ignoreP).copied.count m = 0) := by
  have h := loop_count ⟨py, path⟩ env targetPath exclude extraP ignoreP
    (target.map (fun t => (splitext t.name).1)) m modnames target []
  unfold copy_modules
  by_cases hmn : modnames.isEmpty
  · rw [if_pos hmn]
    refine ⟨le_trans h.1 (by simp), fun hm => by rw [h.2 hm]; simp⟩
  · rw [if_neg hmn]
    refine ⟨le_trans h.1 (by simp), fun hm => by rw [h.2 hm]; simp⟩

theorem C5_copy_once_per_occurrence_witness :
    ((copy_modules envC5 ["m"] "/t" [FsTree.file "m.py" "old"] "3.8" [""] [] []
        []).copied.count "m" ≤ List.count "m" ["m"])
    ∧ (copy_modules envC5 ["m"] "/t" [FsTree.file "m.py" "old"] "3.8" [""] [] []
        []).copied.count "m" = 0 := by
  have h := C5_copy_once_per_occurrence envC5 ["m"] "/t" [FsTree.file "m.py" "old"]
    "3.8" [""] [] [] [] "m"
  exact ⟨h.1, h.2 (by decide)⟩

/- ----------------------------------------------------------------------
Entry-preservation lemmas for C4.
---------------------------------------------------------------------- -/

/-- Well-formedness of a resolution result: the artifact staged for a
requested name has that name as its extension-stripped stem, as
`PathFinder` resolution guarantees for real module layouts (`n.py`, `n.pyd`,
a package directory `n/`). -/
def resolvedStemOK (spec : Option (Option Loader)) (n : String) : Bool :=
  match spec with
  | some (some (.extensionFile p)) => (splitext (os_basename p)).1 = n
  | some (some (.sourceFile f false)) => (splitext (os_basename f)).1 = n
  | _ => true

theorem splitext_no_dot (s : String) (h : ∀ c ∈ s.data, c ≠ '.') :
    splitext s = (s, "") := by
  have hidx : (List.range s.data.length).filter
      (fun i => s.data.getD i ' ' = '.') = [] := by
    rw [List.filter_eq_nil_iff]
    intro i hi hdec
    rw [List.mem_range] at hi
    have hd : s.data.getD i ' ' = '.' := of_decide_eq_true hdec
    rw [List.getD_eq_getElem s.data ' ' hi] at hd
    exact h _ (List.getElem_mem hi) hd
  unfold splitext
  simp only [hidx]
  rfl

theorem lookupName_cons_ne (t : FsTree) (ts : List FsTree) (nm : String)
    (h : t.name ≠ nm) : lookupName nm (t :: ts) = lookupName nm ts := by
  unfold lookupName
  rw [List.find?_cons_of_neg]
  simp [h]

theorem lookupName_cons_same_head (t : FsTree) (ts ts2 : List FsTree)
    (nm : String) (h : lookupName nm ts = lookupName nm ts2) :
    lookupName nm (t :: ts) = lookupName nm (t :: ts2) := by
  unfold lookupName at *
  by_cases hp : t.name = nm
  · rw [List.find?_cons_of_pos _ (by simp [hp]),
      List.find?_cons_of_pos _ (by simp [hp])]
  · rw [List.find?_cons_of_neg _ (by simp [hp]),
      List.find?_cons_of_neg _ (by simp [hp])]
    exact h

theorem lookupName_copy2_ne (base content nm : String) (hne : base ≠ nm)
    (ts : List FsTree) :
    lookupName nm (copy2ToDir base content ts) = lookupName nm ts := by
  induction ts with
  | nil =>
    rw [copy2ToDir, lookupName_cons_ne _ _ _ (by simp [FsTree.name, hne])]
  | cons t rest ih =>
    cases t with
    | file n c =>
      rw [copy2ToDir]
      by_cases hb : n = base
      · rw [if_pos hb,
          lookupName_cons_ne _ _ _ (by simp [FsTree.name, hne]),
          lookupName_cons_ne _ _ _ (by simp [FsTree.name, hb, hne])]
      · rw [if_neg hb]
        exact lookupName_cons_same_head _ _ _ _ ih
    | dir n ch =>
      rw [copy2ToDir]
      by_cases hb : n = base
      · rw [if_pos hb,
          lookupName_cons_ne _ _ _ (by simp [FsTree.name, hb, hne]),
          lookupName_cons_ne _ _ _ (by simp [FsTree.name, hb, hne])]
      · rw [if_neg hb]
        exact lookupName_cons_same_head _ _ _ _ ih

theorem lookupName_append_one (nm : String) (ts : List FsTree) (x : FsTree)
    (hx : x.name ≠ nm) : lookupName nm (ts ++ [x]) = lookupName nm ts := by
  induction ts with
  | nil =>
    rw [List.nil_append, lookupName_cons_ne _ _ _ hx]
  | cons t rest ih =>
    rw [List.cons_append]
    exact lookupName_cons_same_head t _ _ nm ih

theorem buildChain_cons_name (c r : String) (rs : List String) (tr : FsTree) :
    (buildChain (c :: r :: rs) tr).name = c := rfl

theorem insertTreeGo_nil (c : String) (rest : List String) (tr : FsTree) :
    insertTreeGo c rest tr [] = .ok [buildChain (c :: rest) tr] := by
  rw [insertTreeGo.eq_def]

theorem insertTreeGo_dir (c : String) (rest : List String) (tr : FsTree)
    (n : String) (ch ts2 : List FsTree) :
    insertTreeGo c rest tr (.dir n ch :: ts2)
      = if n = c then
          match insertTree rest tr ch with
          | .ok ch2 => .ok (.dir n ch2 :: ts2)
          | .error e => .error e
        else
          match insertTreeGo c rest tr ts2 with
          | .ok ts3 => .ok (.dir n ch :: ts3)
          | .error e => .error e := by
  rw [insertTreeGo.eq_def]

theorem insertTreeGo_file (c : String) (rest : List String) (tr : FsTree)
    (n cc : String) (ts2 : List FsTree) :
    insertTreeGo c rest tr (.file n cc :: ts2)
      = if n = c then .error .notADirectoryError
        else
          match insertTreeGo c rest tr ts2 with
          | .ok ts3 => .ok (.file n cc :: ts3)
          | .error e => .error e := by
  rw [insertTreeGo.eq_def]

theorem lookupName_insertTreeGo (c r : String) (rs : List String)
    (tr : FsTree) (nm : String) (hne : c ≠ nm) :
    ∀ (ts ts3 : List FsTree), insertTreeGo c (r :: rs) tr ts = .ok ts3 →
      lookupName nm ts3 = lookupName nm ts := by
  intro ts
  induction ts with
  | nil =>
    intro ts3 h
    rw [insertTreeGo_nil] at h
    injection h with h2
    rw [← h2, lookupName_cons_ne _ _ _ (by rw [buildChain_cons_name]; exact hne)]
  | cons t ts2 ih =>
    intro ts3 h
    cases t with
    | dir n ch =>
      rw [insertTreeGo_dir] at h
      by_cases hb : n = c
      · rw [if_pos hb] at h
        cases hit : insertTree (r :: rs) tr ch with
        | ok ch2 =>
          rw [hit] at h
          injection h with h2
          rw [← h2,
            lookupName_cons_ne _ _ _ (by simp [FsTree.name, hb, hne]),
            lookupName_cons_ne _ _ _ (by simp [FsTree.name, hb, hne])]
        | error e =>
          rw [hit] at h
          nomatch h
      · rw [if_neg hb] at h
        cases hgo : insertTreeGo c (r :: rs) tr ts2 with
        | ok ts4 =>
          rw [hgo] at h
          injection h with h2
          rw [← h2]
          exact lookupName_cons_same_head _ _ _ _ (ih ts4 hgo)
        | error e =>
          rw [hgo] at h
          nomatch h
    | file n cc =>
      rw [insertTreeGo_file] at h
      by_cases hb : n = c
      · rw [if_pos hb] at h
        nomatch h
      · rw [if_neg hb] at h
        cases hgo : insertTreeGo c (r :: rs) tr ts2 with
        | ok ts4 =>
          rw [hgo] at h
          injection h with h2
          rw [← h2]
          exact lookupName_cons_same_head _ _ _ _ (ih ts4 hgo)
        | error e =>
          rw [hgo] at h
          nomatch h

theorem lookupName_insertTree (c : String) (rest : List String) (tr : FsTree)
    (ts ts2 : List FsTree) (nm : String) (hne : c ≠ nm) (htr : tr.name ≠ nm)
    (h : insertTree (c :: rest) tr ts = .ok ts2) :
    lookupName nm ts2 = lookupName nm ts := by
  cases rest with
  | nil =>
    rw [insertTree] at h
    by_cases ha : ts.any (fun x => x.name = c) = true
    · rw [if_pos ha] at h
      nomatch h
    · rw [if_neg ha] at h
      injection h with h2
      rw [← h2]
      exact lookupName_append_one nm ts tr htr
  | cons r rs =>
    rw [insertTree] at h
    · exact lookupName_insertTreeGo c r rs tr nm hne ts ts2 h
    · simp

/-- A successful copy of a unit `n` (whose resolution is stem-consistent and
whose name is dotless) never touches a top-level target entry whose
extension-stripped stem differs from `n`, provided no remap value's leading
component collides with that entry's name. -/
theorem copy_preserves_entry (mc : ModuleCopier) (env : PyEnv) (n : String)
    (targetPath : String) (exclude : List String)
    (extraP : List (String × String))
    (ignoreP : List (String × List (List String)))
    (nm m : String)
    (hstem : resolvedStemOK (env.findSpec mc.path n) n = true)
    (hdot : ∀ c ∈ n.data, c ≠ '.')
    (hnm : (splitext nm).1 = m)
    (hne : n ≠ m)
    (hremap : ∀ kv ∈ extraP, ∀ c cs, pathComponents kv.2 = c :: cs → c ≠ nm)
    (t t2 : List FsTree)
    (h : ModuleCopier.copy mc env n targetPath t exclude extraP ignoreP = .ok t2) :
    lookupName nm t2 = lookupName nm t := by
  have hn_ne : n ≠ nm := by
    intro heq
    apply hne
    rw [← hnm, ← heq, splitext_no_dot n hdot]
  unfold ModuleCopier.copy at h
  cases hspec : env.findSpec mc.path n with
  | none =>
    rw [hspec] at h
    nomatch h
  | some ol =>
    rw [hspec] at h
    rw [hspec] at hstem
    cases ol with
    | none => nomatch h
    | some loader =>
      cases loader with
      | extensionFile p =>
        have hstem2 : (splitext (os_basename p)).1 = n := by
          simpa [resolvedStemOK] using hstem
        simp only at h
        cases hchk : check_ext_mod p mc.py_version env.running_python with
        | error e =>
          rw [hchk] at h
          nomatch h
        | ok u =>
          rw [hchk] at h
          simp only at h
          injection h with h2
          rw [← h2]
          apply lookupName_copy2_ne
          intro heq
          apply hne
          rw [← hstem2, heq, hnm]
      | sourceFile f b =>
        cases b with
        | false =>
          have hstem2 : (splitext (os_basename f)).1 = n := by
            simpa [resolvedStemOK] using hstem
          simp only [Loader.isPkg] at h
          injection h with h2
          rw [← h2]
          apply lookupName_copy2_ne
          intro heq
          apply hne
          rw [← hstem2, heq, hnm]
        | true =>
          simp only [Loader.isPkg, eq_self_iff_true, if_true] at h
          by_cases hini : pyStartsWith (os_path_split f).2 "__init__" = true
          · rw [if_pos hini] at h
            cases hchk : check_package_for_ext_mods
                (pathComponents (os_path_split f).1)
                (env.dirTree (os_path_split f).1) mc.py_version env.running_python
                (((ignoreP.find? (fun kv => kv.1 = n)).map Prod.snd).getD []) with
            | error e =>
              rw [hchk] at h
              nomatch h
            | ok u =>
              rw [hchk] at h
              simp only at h
              cases hfind : extraP.find?
                  (fun kv => env.samefile kv.1 (os_path_split f).1) with
              | none =>
                rw [hfind] at h
                simp only at h
                by_cases hexc : exclude.isEmpty = true
                · rw [if_pos hexc] at h
                  refine lookupName_insertTree n [] _ t t2 nm hn_ne ?_ h
                  exact hn_ne
                · rw [if_neg hexc] at h
                  refine lookupName_insertTree n [] _ t t2 nm hn_ne ?_ h
                  exact hn_ne
              | some kv =>
                rw [hfind] at h
                simp only at h
                have hkv_mem : kv ∈ extraP := List.mem_of_find?_eq_some hfind
                cases hpc : pathComponents kv.2 with
                | nil =>
                  rw [hpc] at h
                  simp only [List.nil_append] at h
                  by_cases hexc : exclude.isEmpty = true
                  · rw [if_pos hexc] at h
                    refine lookupName_insertTree n [] _ t t2 nm hn_ne ?_ h
                    exact hn_ne
                  · rw [if_neg hexc] at h
                    refine lookupName_insertTree n [] _ t t2 nm hn_ne ?_ h
                    exact hn_ne
                | cons c cs =>
                  rw [hpc] at h
                  simp only [List.cons_append] at h
                  have hc_ne : c ≠ nm := hremap kv hkv_mem c cs hpc
                  by_cases hexc : exclude.isEmpty = true
                  · rw [if_pos hexc] at h
                    refine lookupName_insertTree c (cs ++ [n]) _ t t2 nm hc_ne ?_ h
                    exact hn_ne
                  · rw [if_neg hexc] at h
                    refine lookupName_insertTree c (cs ++ [n]) _ t t2 nm hc_ne ?_ h
                    exact hn_ne
          · rw [if_neg hini] at h
            nomatch h
      | zipImp z =>
        obtain ⟨e, he⟩ :=
          (copy_zipmodule_run (env.zipMembers z.archive) z n targetPath t).2.2.1
        simp only at h
        rw [he] at h
        nomatch h

theorem loop_not_copied (mc : ModuleCopier) (env : PyEnv) (targetPath : String)
    (exclude : List String) (extraP : List (String × String))
    (ignoreP : List (String × List (List String))) (stems : List String)
    (m : String) (hm : m ∈ stems) :
    ∀ ms (t : List FsTree) (log : List String),
      m ∈ (copyModulesLoop mc env targetPath exclude extraP ignoreP stems ms t
        log).2.1 → m ∈ log := by
  intro ms
  induction ms with
  | nil =>
    intro t log h
    rw [copyModulesLoop] at h
    exact h
  | cons n rest ih =>
    intro t log h
    rw [copyModulesLoop] at h
    by_cases hn : n ∈ stems
    · rw [if_pos hn] at h
      exact ih t log h
    · rw [if_neg hn] at h
      cases hc : ModuleCopier.copy mc env n targetPath t exclude extraP ignoreP with
      | ok t2 =>
        rw [hc] at h
        simp only at h
        have h2 := ih t2 (log ++ [n]) h
        rcases List.mem_append.mp h2 with h3 | h3
        · exact h3
        · rw [List.mem_singleton] at h3
          exact absurd (h3 ▸ hm) hn
      | error e =>
        rw [hc] at h
        simp only at h
        exact h

theorem loop_preserve_entry (mc : ModuleCopier) (env : PyEnv)
    (targetPath : String) (exclude : List String)
    (extraP : List (String × String))
    (ignoreP : List (String × List (List String))) (stems : List String)
    (nm m : String) (e : FsTree)
    (hnm : (splitext nm).1 = m) (hm : m ∈ stems)
    (hremap : ∀ kv ∈ extraP, ∀ c cs, pathComponents kv.2 = c :: cs → c ≠ nm) :
    ∀ ms, (∀ n ∈ ms, resolvedStemOK (env.findSpec mc.path n) n = true) →
      (∀ n ∈ ms, ∀ c ∈ n.data, c ≠ '.') →
      ∀ (t : List FsTree) (log : List String),
        lookupName nm t = some e →
        lookupName nm (copyModulesLoop mc env targetPath exclude extraP ignoreP
          stems ms t log).1 = some e := by
  intro ms
  induction ms with
  | nil =>
    intro _ _ t log hlk
    rw [copyModulesLoop]
    exact hlk
  | cons n rest ih =>
    intro hstems hdots t log hlk
    rw [copyModulesLoop]
    by_cases hn : n ∈ stems
    · rw [if_pos hn]
      exact ih (fun x hx => hstems x (List.mem_cons_of_mem _ hx))
        (fun x hx => hdots x (List.mem_cons_of_mem _ hx)) t log hlk
    · rw [if_neg hn]
      cases hc : ModuleCopier.copy mc env n targetPath t exclude extraP ignoreP with
      | ok t2 =>
        simp only
        have hpres := copy_preserves_entry mc env n targetPath exclude extraP
          ignoreP nm m (hstems n (List.mem_cons_self _ _))
          (hdots n (List.mem_cons_self _ _)) hnm
          (by intro heq; exact hn (by rwa [heq])) hremap t t2 hc
        exact ih (fun x hx => hstems x (List.mem_cons_of_mem _ hx))
          (fun x hx => hdots x (List.mem_cons_of_mem _ hx)) t2 (log ++ [n])
          (by rw [hpres]; exact hlk)
      | error e2 =>
        simp only
        exact hlk

/-- `copy_modules` on a non-empty request list: no placeholder, fields taken
from the loop. -/
theorem copy_modules_cons (env : PyEnv) (n0 : String) (rest0 : List String)
    (targetPath : String) (target : List FsTree) (py : String)
    (path : List String) (exclude : List String)
    (extraP : List (String × String))
    (ignoreP : List (String × List (List String))) :
    copy_modules env (n0 :: rest0) targetPath target py path exclude extraP
      ignoreP
      = { target := (copyModulesLoop ⟨py, path⟩ env targetPath exclude extraP
            ignoreP (target.map (fun t => (splitext t.name).1)) (n0 :: rest0)
            target []).1,
          copied := (copyModulesLoop ⟨py, path⟩ env targetPath exclude extraP
            ignoreP (target.map (fun t => (splitext t.name).1)) (n0 :: rest0)
            target []).2.1,
          placeholderWritten := false,
          outcome := (copyModulesLoop ⟨py, path⟩ env targetPath exclude extraP
            ignoreP (target.map (fun t => (splitext t.name).1)) (n0 :: rest0)
            target []).2.2 } := rfl

set_option maxHeartbeats 2000000 in
/-- C4: a unit name whose stem already appears (extension stripped) among
the target directory's top-level entries before the batch starts is never
copied by `copy_modules`, and that entry is unchanged when the batch
finishes — assuming each requested name resolves to an artifact bearing its
own name as stem (as Python resolution guarantees), module names are
dotless top-level names (as the source's docstring requires), and no remap
value's leading component collides with the entry's name. -/
theorem C4_prestaged_skipped (env : PyEnv) (modnames : List String)
    (targetPath : String) (target : List FsTree) (py : String)
    (path : List String) (exclude : List String)
    (extraP : List (String × String))
    (ignoreP : List (String × List (List String)))
    (e : FsTree) (m : String)
    (hlk : lookupName e.name target = some e)
    (hm : (splitext e.name).1 = m)
    (hmem : m ∈ modnames)
    (hstems : ∀ n ∈ modnames, resolvedStemOK (env.findSpec path n) n = true)
    (hdots : ∀ n ∈ modnames, ∀ c ∈ n.data, c ≠ '.')
    (hremap : ∀ kv ∈ extraP, ∀ c cs, pathComponents kv.2 = c :: cs → c ≠ e.name) :
    m ∉ (copy_modules env modnames targetPath target py path exclude extraP
      ignoreP).copied
    ∧ lookupName e.name (copy_modules env modnames targetPath target py path
        exclude extraP ignoreP).target = some e := by
  have hm_stems : m ∈ target.map (fun t => (splitext t.name).1) := by
    have he_mem : e ∈ target := List.mem_of_find?_eq_some hlk
    rw [← hm]
    exact List.mem_map_of_mem _ he_mem
  cases modnames with
  | nil => cases hmem
  | cons n0 rest0 =>
    rw [copy_modules_cons]
    constructor
    · intro hcopied
      have := loop_not_copied ⟨py, path⟩ env targetPath exclude extraP ignoreP
        (target.map (fun t => (splitext t.name).1)) m hm_stems (n0 :: rest0)
        target [] hcopied
      cases this
    · exact loop_preserve_entry ⟨py, path⟩ env targetPath exclude extraP ignoreP
        (target.map (fun t => (splitext t.name).1)) e.name m e hm hm_stems hremap
        (n0 :: rest0) hstems hdots target [] hlk

/-- An environment resolving only the plain-file module `other`. -/
def envC4 : PyEnv :=
  ⟨fun _ n => if n = "other" then some (some (.sourceFile "/src/other.py" false))
    else none,
   fun _ => [], fun _ => "x", fun _ _ => false, fun _ => [], "3.8"⟩

theorem C4_prestaged_skipped_witness :
    "m" ∉ (copy_modules envC4 ["m", "other"] "/t" [FsTree.file "m.py" "old"]
      "3.8" [""] [] [] []).copied
    ∧ lookupName "m.py" (copy_modules envC4 ["m", "other"] "/t"
        [FsTree.file "m.py" "old"] "3.8" [""] [] [] []).target
      = some (FsTree.file "m.py" "old") := by
  have h := C4_prestaged_skipped envC4 ["m", "other"] "/t"
    [FsTree.file "m.py" "old"] "3.8" [""] [] [] []
    (FsTree.file "m.py" "old") "m" rfl (by decide) (by decide) (by decide)
    (by decide) (by intro kv hkv; cases hkv)
  exact h

/- ----------------------------------------------------------------------
Fresh-destination lemmas for C9.
---------------------------------------------------------------------- -/

theorem lookupName_none_any (c : String) (ts : List FsTree)
    (h : lookupName c ts = none) :
    ts.any (fun x => x.name = c) = false := by
  unfold lookupName at h
  rw [List.find?_eq_none] at h
  rw [List.any_eq_false]
  intro x hx
  simpa using h x hx

theorem insertTreeGo_fresh (c r : String) (rs : List String) (tr : FsTree)
    (ts : List FsTree) (h : lookupName c ts = none) :
    insertTreeGo c (r :: rs) tr ts
      = .ok (ts ++ [buildChain (c :: r :: rs) tr]) := by
  induction ts with
  | nil => rw [insertTreeGo_nil]; rfl
  | cons t ts2 ih =>
    have hname : t.name ≠ c := by
      intro he
      unfold lookupName at h
      rw [List.find?_cons_of_pos _ (by simp [he])] at h
      cases h
    have htail : lookupName c ts2 = none := by
      unfold lookupName at h ⊢
      rwa [List.find?_cons_of_neg _ (by simp [hname])] at h
    cases t with
    | dir n ch =>
      rw [insertTreeGo_dir, if_neg (by simpa [FsTree.name] using hname),
        ih htail]
      rfl
    | file n cc =>
      rw [insertTreeGo_file, if_neg (by simpa [FsTree.name] using hname),
        ih htail]
      rfl

theorem insertTree_fresh (c : String) (rest : List String) (tr : FsTree)
    (ts : List FsTree) (h : lookupName c ts = none) :
    insertTree (c :: rest) tr ts = .ok (ts ++ [buildChain (c :: rest) tr]) := by
  cases rest with
  | nil =>
    rw [insertTree, if_neg (by rw [lookupName_none_any c ts h]; simp)]
    rfl
  | cons r rs =>
    rw [insertTree]
    · exact insertTreeGo_fresh c r rs tr ts h
    · simp

theorem lookupName_append_none (c : String) (ts : List FsTree) (x : FsTree)
    (h : lookupName c ts = none) :
    lookupName c (ts ++ [x]) = lookupName c [x] := by
  induction ts with
  | nil => rfl
  | cons t ts2 ih =>
    have hname : t.name ≠ c := by
      intro he
      unfold lookupName at h
      rw [List.find?_cons_of_pos _ (by simp [he])] at h
      cases h
    have htail : lookupName c ts2 = none := by
      unfold lookupName at h ⊢
      rwa [List.find?_cons_of_neg _ (by simp [hname])] at h
    rw [List.cons_append, lookupName_cons_ne _ _ _ hname]
    exact ih htail

theorem lookupAtPath_chain (p : List String) (tr : FsTree)
    (htr : p.getLast? = some tr.name) :
    lookupAtPath p [buildChain p tr] = some tr := by
  induction p with
  | nil => cases htr
  | cons c rest ih =>
    cases rest with
    | nil =>
      have hc : c = tr.name := by simpa using htr
      show lookupName c [buildChain [c] tr] = some tr
      unfold buildChain lookupName
      rw [List.find?_cons_of_pos _ (by simp [hc])]
    | cons r rs =>
      have hchain : buildChain (c :: r :: rs) tr
          = .dir c [buildChain (r :: rs) tr] := rfl
      rw [hchain]
      show (match lookupName c [FsTree.dir c [buildChain (r :: rs) tr]] with
        | some (.dir _ ch) => lookupAtPath (r :: rs) ch
        | _ => none) = some tr
      rw [show lookupName c [FsTree.dir c [buildChain (r :: rs) tr]]
          = some (.dir c [buildChain (r :: rs) tr]) from by
        unfold lookupName
        rw [List.find?_cons_of_pos _ (by simp [FsTree.name])]]
      exact ih (by simpa using htr)

theorem lookupAtPath_fresh_append (c : String) (rest : List String)
    (ts : List FsTree) (x : FsTree) (h : lookupName c ts = none) :
    lookupAtPath (c :: rest) (ts ++ [x]) = lookupAtPath (c :: rest) [x] := by
  cases rest with
  | nil =>
    show lookupName c (ts ++ [x]) = lookupName c [x]
    exact lookupName_append_none c ts x h
  | cons r rs =>
    show (match lookupName c (ts ++ [x]) with
      | some (.dir _ ch) => lookupAtPath (r :: rs) ch
      | _ => none)
      = (match lookupName c [x] with
        | some (.dir _ ch) => lookupAtPath (r :: rs) ch
        | _ => none)
    rw [lookupName_append_none c ts x h]

/-- Evaluation of the directory-package branch of `ModuleCopier.copy`: once
resolution, the `__init__` assert and the compatibility check pass, the copy
is exactly a `copytree` into `target/<remap-value>/<name>` when the first
`os.path.samefile` match determines a remap, and into `target/<name>`
otherwise. -/
theorem copy_pkg_eval (env : PyEnv) (py : String) (searchPath : List String)
    (modname targetPath : String) (target : List FsTree) (exclude : List String)
    (extraP : List (String × String))
    (ignoreP : List (String × List (List String))) (file : String)
    (hspec : env.findSpec searchPath modname = some (some (.sourceFile file true)))
    (hini : pyStartsWith (os_path_split file).2 "__init__" = true)
    (hchk : check_package_for_ext_mods (pathComponents (os_path_split file).1)
        (env.dirTree (os_path_split file).1) py env.running_python
        (((ignoreP.find? (fun kv => kv.1 = modname)).map Prod.snd).getD [])
      = .ok ()) :
    ModuleCopier.copy ⟨py, searchPath⟩ env modname targetPath target exclude
        extraP ignoreP
      = insertTree
          (match extraP.find?
              (fun kv => env.samefile kv.1 (os_path_split file).1) with
           | some kv => pathComponents kv.2 ++ [modname]
           | none => [modname])
          (FsTree.dir modname
            (if exclude.isEmpty then
              copyDir (ignore_patterns_cb ["*.pyc"]) (os_path_split file).1
                (env.dirTree (os_path_split file).1)
            else
              copyDir (copytree_ignore_callback exclude (os_path_split file).1
                  modname)
                (os_path_split file).1 (env.dirTree (os_path_split file).1)))
          target := by
  simp only [ModuleCopier.copy]
  rw [hspec]
  simp only [Loader.isPkg, eq_self_iff_true, if_true]
  rw [if_pos hini, hchk]
  cases hfind : extraP.find?
      (fun kv => env.samefile kv.1 (os_path_split file).1) with
  | none =>
    simp only [hfind]
    cases hexc : exclude.isEmpty <;> simp [hexc]
  | some kv =>
    simp only [hfind]
    cases hexc : exclude.isEmpty <;> simp [hexc]

/-- C9: when copying a directory package, the staged tree is placed at
`target/<remap-value>/<name>` when the package's source root is the same
filesystem object (per the `os.path.samefile` oracle, not string equality of
paths) as some `packages_extraPath` key, and at `target/<name>` when no key
matches — stated for fresh destinations, where `copytree` succeeds. -/
theorem C9_remap_dest (env : PyEnv) (py : String) (searchPath : List String)
    (modname targetPath : String) (target : List FsTree) (exclude : List String)
    (extraP : List (String × String))
    (ignoreP : List (String × List (List String))) (file : String)
    (hspec : env.findSpec searchPath modname = some (some (.sourceFile file true)))
    (hini : pyStartsWith (os_path_split file).2 "__init__" = true)
    (hchk : check_package_for_ext_mods (pathComponents (os_path_split file).1)
        (env.dirTree (os_path_split file).1) py env.running_python
        (((ignoreP.find? (fun kv => kv.1 = modname)).map Prod.snd).getD [])
      = .ok ()) :
    (∀ k v, extraP.find? (fun kv => env.samefile kv.1 (os_path_split file).1)
        = some (k, v) →
      ∀ c cs, pathComponents v = c :: cs →
      lookupName c target = none →
      ∃ t2, ModuleCopier.copy ⟨py, searchPath⟩ env modname targetPath target
          exclude extraP ignoreP = .ok t2
        ∧ ∃ ch, lookupAtPath (pathComponents v ++ [modname]) t2
            = some (.dir modname ch))
    ∧ ((∀ kv ∈ extraP, env.samefile kv.1 (os_path_split file).1 = false) →
      lookupName modname target = none →
      ∃ t2, ModuleCopier.copy ⟨py, searchPath⟩ env modname targetPath target
          exclude extraP ignoreP = .ok t2
        ∧ ∃ ch, lookupAtPath [modname] t2 = some (.dir modname ch)) := by
  constructor
  · intro k v hfind c cs hv hfresh
    rw [copy_pkg_eval env py searchPath modname targetPath target exclude
      extraP ignoreP file hspec hini hchk, hfind]
    simp only [hv, List.cons_append]
    rw [insertTree_fresh c (cs ++ [modname]) _ target hfresh]
    refine ⟨_, rfl, ?_⟩
    rw [lookupAtPath_fresh_append c (cs ++ [modname]) target _ hfresh,
      lookupAtPath_chain]
    · exact ⟨_, rfl⟩
    · rw [show (c :: (cs ++ [modname])) = (c :: cs) ++ [modname] from by simp,
        List.getLast?_concat]
      rfl
  · intro hnone hfresh
    have hfind : extraP.find?
        (fun kv => env.samefile kv.1 (os_path_split file).1) = none := by
      rw [List.find?_eq_none]
      intro x hx
      simp [hnone x hx]
    rw [copy_pkg_eval env py searchPath modname targetPath target exclude
      extraP ignoreP file hspec hini hchk, hfind]
    rw [insertTree_fresh modname [] _ target hfresh]
    refine ⟨_, rfl, ?_⟩
    rw [show lookupAtPath [modname]
        (target ++ [buildChain [modname] (FsTree.dir modname
          (if exclude.isEmpty then
            copyDir (ignore_patterns_cb ["*.pyc"]) (os_path_split file).1
              (env.dirTree (os_path_split file).1)
          else
            copyDir (copytree_ignore_callback exclude (os_path_split file).1
                modname)
              (os_path_split file).1 (env.dirTree (os_path_split file).1)))])
        = lookupName modname
          (target ++ [FsTree.dir modname
            (if exclude.isEmpty then
              copyDir (ignore_patterns_cb ["*.pyc"]) (os_path_split file).1
                (env.dirTree (os_path_split file).1)
            else
              copyDir (copytree_ignore_callback exclude (os_path_split file).1
                  modname)
                (os_path_split file).1 (env.dirTree (os_path_split file).1))])
      from rfl]
    rw [lookupName_append_none _ _ _ hfresh]
    unfold lookupName
    rw [List.find?_cons_of_pos _ (by simp [FsTree.name])]
    exact ⟨_, rfl⟩

/-- An environment where `/lnk` and `/real/pkg` are the same filesystem
object (e.g. a symlink) though the path strings differ, and `pkg` resolves
to a directory package rooted at `/real/pkg`. -/
def envC9 : PyEnv :=
  ⟨fun _ n => if n = "pkg" then
      some (some (.sourceFile "/real/pkg/__init__.py" true)) else none,
   fun _ => [FsTree.file "mod.py" "c"],
   fun _ => "",
   fun a b => a == "/lnk" && b == "/real/pkg",
   fun _ => [],
   "3.8"⟩

theorem C9_remap_dest_witness :
    (∃ t2, ModuleCopier.copy ⟨"3.8", [""]⟩ envC9 "pkg" "/t" [] []
        [("/lnk", "win")] [] = .ok t2
      ∧ ∃ ch, lookupAtPath (pathComponents "win" ++ ["pkg"]) t2
          = some (.dir "pkg" ch))
    ∧ ("/lnk" : String) ≠ "/real/pkg" := by
  have hchk : check_package_for_ext_mods
      (pathComponents (os_path_split "/real/pkg/__init__.py").1)
      (envC9.dirTree (os_path_split "/real/pkg/__init__.py").1) "3.8"
      envC9.running_python
      ((((([] : List (String × List (List String)))).find?
          (fun kv => kv.1 = "pkg")).map Prod.snd).getD []) = .ok () := by
    have hw : walkTree ["real", "pkg"] [FsTree.file "mod.py" "c"]
        = [(["real", "pkg"], ["mod.py"])] := by
      simp [walkTree, walkSubs, filesOf]
    show cpemRun "3.8" "3.8" []
      (walkTree ["real", "pkg"] [FsTree.file "mod.py" "c"]) = .ok ()
    rw [hw]
    rfl
  refine ⟨?_, by decide⟩
  exact (C9_remap_dest envC9 "3.8" [""] "pkg" "/t" [] [] [("/lnk", "win")] []
    "/real/pkg/__init__.py" rfl (by decide) hchk).1 "/lnk" "win" rfl "win" []
    rfl rfl
